import Mathlib

/-!
Verification of the parallel block-based render scheduler of the
`wasm-pathtracer` repository.

The development shallowly embeds, in Lean, the TypeScript scheduler core:

* `RenderManager` (file `render_manager.ts`, the variant with `setNumCores`
  and worker termination): block enumeration at `start()`, the in-place
  shuffle of the pending queue, pool resizing with reclaim of in-flight
  blocks, and the asynchronous result continuation created in
  `_enqueueAll()`.
* `RaytraceTarget.addRect` (file `offscreen_target.ts`): the composite rule
  writing one RGB pixel slab into the RGBA frame buffer.
* `JobQueue` (file `client/raytracer/multicore.ts`): the job serializer
  that runs submitted thunks one at a time.

JavaScript arrays become Lean lists (`shift` = head removal, `push` =
append), JavaScript numbers in scheduler-relevant positions are natural
numbers, promises become explicit transition steps of a small-step
semantics, and `Math.random()` draws become explicit input sequences.
Mutable heap objects (the `BlockRendererInstance` objects captured by the
result closures) are modelled by a registry of slots addressed by a unique
slot identifier; object identity is identifier equality.
-/

namespace PathTracer

open List

/-- The work-block rectangle (`rect4.ts`): origin `(x, y)` in pixels plus a
width and height.  The file itself is not part of the sources, but its
shape is fully determined by its construction and field accesses in
`render_manager.ts` (`new Rect4(x, y, w, h)`, `.x`, `.y`, `.width`,
`.height`). -/
structure Rect4 where
  x : Nat
  y : Nat
  width : Nat
  height : Nat
deriving Repr, DecidableEq

/-- `RenderConfig` from `render_manager.ts`. -/
structure RenderConfig where
  blockSize : Nat
  width : Nat
  height : Nat
  antiAlias : Nat
  isBandless : Bool
deriving Repr, DecidableEq

/-- `Math.ceil(a / b)` for natural `a` and positive natural `b`. -/
def ceilDiv (a b : Nat) : Nat := (a + b - 1) / b

theorem ceilDiv_le_iff {a b k : Nat} (hb : 0 < b) : ceilDiv a b ≤ k ↔ a ≤ k * b := by
  unfold ceilDiv
  rw [Nat.div_le_iff_le_mul_add_pred hb, Nat.mul_comm b k]
  omega

theorem lt_ceilDiv_iff {a b k : Nat} (hb : 0 < b) : k < ceilDiv a b ↔ k * b < a := by
  constructor
  · intro h
    by_contra hc
    have : ceilDiv a b ≤ k := (ceilDiv_le_iff hb).mpr (by omega)
    omega
  · intro h
    by_contra hc
    have : a ≤ k * b := (ceilDiv_le_iff hb).mp (by omega)
    omega

/-- The block of the grid cell `(bx, by)` produced by the enumeration loop in
`RenderManager.start`:
`new Rect4( x*blockSize, y*blockSize, min(width - x*blockSize, blockSize),
min(height - y*blockSize, blockSize) )`. -/
def mkBlock (cfg : RenderConfig) (bx bY : Nat) : Rect4 :=
  { x := bx * cfg.blockSize
  , y := bY * cfg.blockSize
  , width := min (cfg.width - bx * cfg.blockSize) cfg.blockSize
  , height := min (cfg.height - bY * cfg.blockSize) cfg.blockSize }

/-- The full block enumeration of `RenderManager.start`: the outer loop runs
`y` from `0` to `numY - 1`, the inner loop `x` from `0` to `numX - 1`, and
each iteration pushes one block, so the resulting pending list is row-major
in `(y, x)`. -/
def enumBlocks (cfg : RenderConfig) : List Rect4 :=
  (List.range (ceilDiv cfg.height cfg.blockSize)).flatMap fun bY =>
    (List.range (ceilDiv cfg.width cfg.blockSize)).map fun bx => mkBlock cfg bx bY

/-- One iteration body of the `shuffle` function of `render_manager.ts`:
`tmp = xs[i]; xs[i] = xs[j]; xs[j] = tmp`.  Out-of-range indices leave the
list unchanged (they cannot occur for the draws the source produces). -/
def swapAt (xs : List α) (i j : Nat) : List α :=
  match xs.get? i, xs.get? j with
  | some a, some b => (xs.set i b).set j a
  | _, _ => xs

/-- The loop of `shuffle`: at step `i` the source draws
`newI = Math.floor(Math.random() * xs.length)` and swaps positions `i` and
`newI`.  The random draws are passed in as the explicit list `draws`; the
source performs exactly `xs.length` iterations, each with a draw
`< xs.length`. -/
def shuffleAux (xs : List α) (draws : List Nat) (i : Nat) : List α :=
  match draws with
  | [] => xs
  | d :: ds => shuffleAux (swapAt xs i d) ds (i + 1)

/-- `shuffle` from `render_manager.ts`, with the `Math.random()` draws made
explicit. -/
def shuffle (xs : List α) (draws : List Nat) : List α := shuffleAux xs draws 0

/-- Pixel-containment of a block: the pixel column `px`, row `py` lies inside
the rectangle. -/
def Rect4.contains (b : Rect4) (px py : Nat) : Prop :=
  b.x ≤ px ∧ px < b.x + b.width ∧ b.y ≤ py ∧ py < b.y + b.height

instance (b : Rect4) (px py : Nat) : Decidable (b.contains px py) := by
  unfold Rect4.contains
  infer_instance

/-! ### The `RenderManager` scheduler state

`render_manager.ts` mutates a heap of `BlockRendererInstance` objects.  The
model gives every such object a unique identifier: `slots` is the registry
of all objects ever constructed (the heap), `renderers` is `this._renderers`
as a list of identifiers in array order, and the result continuations of
`_enqueueAll` capture the identifier of their instance.  The
`RaytraceTarget` constructed by `start()` is likewise identified by a
generation number; its pixel contents are tracked as the list of `addRect`
calls in `writes`. -/

/-- A `BlockRendererInstance`: the `renderer` handle is external, so only
the identity and the `inprogress` field remain.  The `initPromise` field is
not modelled: `_enqueueAll` assigns work without consulting it (it only
sequences the external render start, which the model folds into the
settlement step). -/
structure Slot where
  id : Nat
  inprogress : Option Rect4
deriving Repr, DecidableEq

/-- The continuation `pResult.then( res => ... )` registered by
`_enqueueAll`, with its captured variables: the instance `r` (by identity),
the block `job`, and the cached `target`. -/
structure Callback where
  cb : Nat
  slot : Nat
  job : Rect4
  tgt : Option Nat
deriving Repr, DecidableEq

/-- Events published on the four observables of `RenderManager`. -/
inductive REvent where
  | queued (rect : Rect4)
  | unqueued (rect : Rect4)
  | progress (rect : Rect4) (numDone numTotal : Nat)
  | done
deriving Repr, DecidableEq

/-- The full scheduler state of a `RenderManager`, together with the model
bookkeeping: the slot registry, the terminated slots, the unsettled render
continuations, the composited rectangles and the emitted events.  `_startTime`
and the `duration` payload of the done event are wall-clock values and are
not modelled. -/
structure RenderManager where
  target : Option Nat
  renderers : List Nat
  slots : List Slot
  todos : List Rect4
  numTotalJobs : Nat
  numDoneJobs : Nat
  antiAlias : Nat
  terminated : List Nat
  pending : List Callback
  writes : List (Option Nat × Rect4)
  events : List REvent
  nextSlot : Nat
  nextTarget : Nat
  nextCb : Nat
deriving Repr, DecidableEq

/-- Reading the `inprogress` field of the instance with identity `id` in a
slot registry. -/
def inprogOf (slots : List Slot) (id : Nat) : Option Rect4 :=
  match slots.find? (fun sl => sl.id == id) with
  | some sl => sl.inprogress
  | none => none

/-- Reading `r.inprogress` of the instance with identity `id`. -/
def lookupInprog (s : RenderManager) (id : Nat) : Option Rect4 :=
  inprogOf s.slots id

/-- Writing `r.inprogress := v` on the instance with identity `id`. -/
def setInprog (slots : List Slot) (id : Nat) (v : Option Rect4) : List Slot :=
  slots.map fun sl => if sl.id == id then { sl with inprogress := v } else sl

/-- The net effect of `for (r of this._renderers) r.inprogress = undefined`. -/
def clearInprogs (slots : List Slot) (ids : List Nat) : List Slot :=
  slots.map fun sl => if sl.id ∈ ids then { sl with inprogress := none } else sl

/-- `n` freshly constructed `BlockRendererInstance`s with identities
`firstId, firstId+1, ...`. -/
def mkSlots (n : Nat) (firstId : Nat) : List Slot :=
  (List.range n).map fun i => { id := firstId + i, inprogress := none }

/-- The `RenderManager` constructor: `numCores` fresh instances. -/
def initRM (numCores : Nat) : RenderManager :=
  { target := none
  , renderers := List.range numCores
  , slots := mkSlots numCores 0
  , todos := []
  , numTotalJobs := 0
  , numDoneJobs := 0
  , antiAlias := 1
  , terminated := []
  , pending := []
  , writes := []
  , events := []
  , nextSlot := numCores
  , nextTarget := 0
  , nextCb := 0 }

/-- The loop of `_enqueueAll()`: for every instance (in array order) that has
no in-flight block, pop the head of `_todos`, store it as the instance's
`inprogress`, emit `queued`, and register the result continuation with the
cached `target`. -/
def enqueueLoop : List Nat → RenderManager → RenderManager
  | [], s => s
  | id :: rest, s =>
    match lookupInprog s id, s.todos with
    | none, job :: todosRest =>
      enqueueLoop rest
        { s with
          slots := setInprog s.slots id (some job)
        , todos := todosRest
        , events := s.events ++ [REvent.queued job]
        , pending := s.pending ++ [{ cb := s.nextCb, slot := id, job := job, tgt := s.target }]
        , nextCb := s.nextCb + 1 }
    | _, _ => enqueueLoop rest s

/-- `RenderManager._enqueueAll()`. -/
def enqueueAll (s : RenderManager) : RenderManager := enqueueLoop s.renderers s

/-- `RenderManager.start(config)`, with the `Math.random()` draws of the
shuffle made explicit.  If the previous frame is incomplete every current
instance is terminated and replaced by a fresh one; otherwise the instances
are kept and their `inprogress` markers are cleared (their `setScene` call
has no further modelled effect).  Then the block grid is enumerated into
`_todos`, shuffled, the counters are reset, a new `RaytraceTarget` is
constructed, and `_enqueueAll` dispatches. -/
def startRM (cfg : RenderConfig) (draws : List Nat) (s : RenderManager) : RenderManager :=
  let numX := ceilDiv cfg.width cfg.blockSize
  let numY := ceilDiv cfg.height cfg.blockSize
  let s1 :=
    if s.numDoneJobs < s.numTotalJobs then
      { s with
        terminated := s.terminated ++ s.renderers
      , renderers := (List.range s.renderers.length).map (fun i => s.nextSlot + i)
      , slots := s.slots ++ mkSlots s.renderers.length s.nextSlot
      , nextSlot := s.nextSlot + s.renderers.length }
    else
      { s with slots := clearInprogs s.slots s.renderers }
  enqueueAll
    { s1 with
      todos := shuffle (enumBlocks cfg) draws
    , numTotalJobs := numX * numY
    , numDoneJobs := 0
    , target := some s1.nextTarget
    , nextTarget := s1.nextTarget + 1
    , antiAlias := cfg.antiAlias }

/-- The `while ( this._renderers.length > c )` loop of `setNumCores`:
`shift()` the head instance, push its in-flight block (if any) back onto
`_todos` and emit `unqueued`, then terminate the instance.  Its
`inprogress` field is not cleared. -/
def reclaimLoop (c : Nat) : List Nat → RenderManager → RenderManager
  | [], s => s
  | id :: rest, s =>
    if c < rest.length + 1 then
      reclaimLoop c rest
        { s with
          renderers := rest
        , todos := s.todos ++ (lookupInprog s id).toList
        , events := s.events ++ ((lookupInprog s id).toList.map REvent.unqueued)
        , terminated := s.terminated ++ [id] }
    else s

/-- The JavaScript exception raised in the grow path of `setNumCores` when
`this._target` is undefined: reading `target.width` throws a `TypeError`. -/
inductive RMError where
  | targetUndefined
deriving Repr, DecidableEq

/-- `RenderManager.setNumCores(c)`.  Shrinking reclaims from the head of the
pool (`shift()`).  Growing caches `this._target`; the loop body first pushes
a fresh instance and then calls `setScene(target.width, target.height)`, so
when no frame has ever been started the first iteration pushes one instance
and then throws — the partial state is kept, paired with the error. -/
def setNumCores (c : Nat) (s : RenderManager) : RenderManager × Option RMError :=
  if c < s.renderers.length then
    (reclaimLoop c s.renderers s, none)
  else if s.renderers.length < c then
    match s.target with
    | none =>
      ({ s with
         renderers := s.renderers ++ [s.nextSlot]
       , slots := s.slots ++ [{ id := s.nextSlot, inprogress := none }]
       , nextSlot := s.nextSlot + 1 }, some RMError.targetUndefined)
    | some _ =>
      let k := c - s.renderers.length
      (enqueueAll
        { s with
          renderers := s.renderers ++ (List.range k).map (fun i => s.nextSlot + i)
        , slots := s.slots ++ mkSlots k s.nextSlot
        , nextSlot := s.nextSlot + k }, none)
  else (s, none)

/-- The continuation body `res => { if (r.inprogress === job) { ... } ;
this._enqueueAll(); }` from `_enqueueAll`: on an identity match the
in-flight marker is cleared, `_numDoneJobs` incremented, the pixels are
composited into the captured target, `progress` is emitted and, when the
frame is complete, `done`; in either case `_enqueueAll` runs again. -/
def onResult (c : Callback) (s : RenderManager) : RenderManager :=
  if lookupInprog s c.slot == some c.job then
    let newDone := s.numDoneJobs + 1
    enqueueAll
      { s with
        slots := setInprog s.slots c.slot none
      , numDoneJobs := newDone
      , writes := s.writes ++ [(c.tgt, c.job)]
      , events := s.events ++ [REvent.progress c.job newDone s.numTotalJobs] ++
          (if newDone = s.numTotalJobs then [REvent.done] else []) }
  else
    enqueueAll s

/-- Settlement of an outstanding render promise: it settles at most once
(the continuation leaves `pending`) and the continuation body `onResult`
from the source runs.  Nothing exempts a reclaimed or terminated instance:
the `BlockRendererInstance` object lives on in the result closure, a
result already resolved or in transit when `terminate()` is called is
still delivered, and the source's only guard is the
`r.inprogress === job` identity check inside `onResult` — which the shrink
path of `setNumCores` never invalidates, since it does not clear
`r.inprogress`. -/
def settleRender (c : Callback) (s : RenderManager) : RenderManager :=
  onResult c { s with pending := s.pending.erase c }

/-- The number of pool instances with a non-empty in-flight block. -/
def inFlight (s : RenderManager) : Nat :=
  s.renderers.countP fun id => (inprogOf s.slots id).isSome

/-- The scheduler accounting equation of the specification:
`done_count + in_flight + pending = total_count`. -/
def countInvariant (s : RenderManager) : Prop :=
  s.numDoneJobs + inFlight s + s.todos.length = s.numTotalJobs

instance (s : RenderManager) : Decidable (countInvariant s) := by
  unfold countInvariant
  infer_instance

/-- The reachability invariant of the scheduler model: the accounting
equation, well-formedness of the identifier bookkeeping, and the facts that
every *live* render continuation (one whose instance has not been
terminated) matches its instance's current in-flight block, targets the
current frame buffer, and is the only live continuation of its instance. -/
structure WF (s : RenderManager) : Prop where
  count : s.numDoneJobs + inFlight s + s.todos.length = s.numTotalJobs
  poolNodup : s.renderers.Nodup
  slotIdsNodup : (s.slots.map Slot.id).Nodup
  poolInSlots : ∀ id ∈ s.renderers, id ∈ s.slots.map Slot.id
  slotFresh : ∀ id ∈ s.slots.map Slot.id, id < s.nextSlot
  termFresh : ∀ id ∈ s.terminated, id < s.nextSlot
  live : ∀ c ∈ s.pending, c.slot ∉ s.terminated →
    c.slot ∈ s.renderers ∧ lookupInprog s c.slot = some c.job ∧ c.tgt = s.target
  liveSep : ∀ c ∈ s.pending, ∀ c' ∈ s.pending, c.slot ∉ s.terminated →
    c ≠ c' → c.slot ≠ c'.slot
  cbFresh : ∀ c ∈ s.pending, c.cb < s.nextCb
  cbNodup : (s.pending.map Callback.cb).Nodup
  tgtNone : s.target = none → s.pending = [] ∧ s.todos = [] ∧
    s.numTotalJobs = 0 ∧ s.numDoneJobs = 0 ∧
    ∀ id ∈ s.renderers, lookupInprog s id = none

/-- One externally triggered transition of the scheduler: a `start` call
(with block size ≥ 1 — a zero block size makes the enumeration loop of the
source diverge — and draws as `Math.floor(Math.random() * len)` produces
them), a `setNumCores` call (an exception in its grow path leaves the
partial state), or the settlement of an outstanding render promise. -/
inductive RStep : RenderManager → RenderManager → Prop where
  | start (cfg : RenderConfig) (draws : List Nat) (s : RenderManager)
      (hbs : 0 < cfg.blockSize)
      (hlen : draws.length = (enumBlocks cfg).length)
      (hdraws : ∀ d ∈ draws, d < (enumBlocks cfg).length) :
      RStep s (startRM cfg draws s)
  | setCores (c : Nat) (s : RenderManager) : RStep s (setNumCores c s).1
  | settle (c : Callback) (s : RenderManager) (hc : c ∈ s.pending) :
      RStep s (settleRender c s)

/-- The states a `RenderManager` constructed with `numCores` workers can
reach. -/
inductive Reachable (numCores : Nat) : RenderManager → Prop where
  | init : Reachable numCores (initRM numCores)
  | step {s s' : RenderManager} : Reachable numCores s → RStep s s' →
      Reachable numCores s'

/-! ### The `JobQueue` serializer of `client/raytracer/multicore.ts`

Thunks are identified by numbers; the value their future produces is
irrelevant to the claims.  The trace records, per job `j`: its submission,
the synchronous call of its thunk (`startJob`), the settlement of the
future the thunk produced (`futureSettled`, fulfilment or rejection), and
the fulfilment of the ticket (`EmptyPromise`) handed back to the caller.
`ticketReject` is included to express the error-forwarding claim; the
source's `EmptyPromise` has no rejection operation at all. -/

inductive JQEvent where
  | submitted (j : Nat)
  | startJob (j : Nat)
  | futureSettled (j : Nat)
  | ticketFulfil (j : Nat)
  | ticketReject (j : Nat)
deriving Repr, DecidableEq

/-- The state of a `JobQueue`: the FIFO `_queue` (ids of queued thunks),
`_isRunning`, the id of the job whose future is currently unsettled (if
any), whether that job was started directly by `add` (its chain is
`f().then(v => { this._next(); ep.fulfil(v); })`) or promoted by `_next`
(chain `(f().then(v => ep.fulfil(v))).then(() => this._next())`), and
whether some future has rejected. -/
structure JobQueue where
  queue : List Nat
  isRunning : Bool
  current : Option Nat
  currentDirect : Bool
  errored : Bool
  events : List JQEvent
deriving Repr, DecidableEq

/-- `new JobQueue()`. -/
def JobQueue.init : JobQueue :=
  { queue := [], isRunning := false, current := none, currentDirect := false
  , errored := false, events := [] }

/-- `JobQueue.add(f)`: if idle, mark running and call the thunk at once;
otherwise append it to the queue. -/
def JobQueue.add (j : Nat) (s : JobQueue) : JobQueue :=
  if s.isRunning then
    { s with queue := s.queue ++ [j], events := s.events ++ [.submitted j] }
  else
    { s with
      isRunning := true
      current := some j
      currentDirect := true
      events := s.events ++ [.submitted j, .startJob j] }

/-- `JobQueue._next()`: promote the head of the queue, or go idle. -/
def JobQueue.next (s : JobQueue) : JobQueue :=
  match s.queue with
  | q :: rest =>
    { s with
      queue := rest
      current := some q
      currentDirect := false
      events := s.events ++ [.startJob q] }
  | [] => { s with isRunning := false, current := none }

/-- Fulfilment of the running job's future.  A directly started job runs
`this._next()` and then fulfils its ticket; a promoted job fulfils its
ticket and then (one microtask later) `this._next()` runs.  An interleaved
`add` between those two microtasks only appends to the queue, which
commutes with `_next`, so the pair is modelled as one step. -/
def JobQueue.settleOk (s : JobQueue) : JobQueue :=
  match s.current with
  | none => s
  | some j =>
    if s.currentDirect then
      let s1 := JobQueue.next
        { s with current := none, events := s.events ++ [.futureSettled j] }
      { s1 with events := s1.events ++ [.ticketFulfil j] }
    else
      JobQueue.next
        { s with
          current := none
          events := s.events ++ [.futureSettled j, .ticketFulfil j] }

/-- Rejection of the running job's future.  Both continuation chains of the
source attach only fulfilment handlers (`.then(v => ...)`), so nothing
runs: the ticket is not settled, `_next()` is not called, and `_isRunning`
remains `true`. -/
def JobQueue.settleErr (s : JobQueue) : JobQueue :=
  match s.current with
  | none => s
  | some j =>
    { s with
      current := none
      errored := true
      events := s.events ++ [.futureSettled j] }

/-- An externally triggered operation on a `JobQueue`. -/
inductive JQOp where
  | add (j : Nat)
  | settleOk
  | settleErr
deriving Repr, DecidableEq

/-- Apply one operation. -/
def JobQueue.step (s : JobQueue) : JQOp → JobQueue
  | .add j => s.add j
  | .settleOk => s.settleOk
  | .settleErr => s.settleErr

/-- Run a script of operations. -/
def runScript (s : JobQueue) : List JQOp → JobQueue
  | [] => s
  | op :: ops => runScript (s.step op) ops

/-- The ids a script submits, in order. -/
def addIds (script : List JQOp) : List Nat :=
  script.filterMap fun op => match op with
    | .add j => some j
    | _ => none

/-- `e1` occurs, and strictly before `e2`, in the event history `H`
(histories are duplicate-free). -/
def eventsBefore (H : List JQEvent) (e1 e2 : JQEvent) : Prop :=
  [e1, e2].Sublist H

/-- Job `j1` was submitted strictly before job `j2`. -/
def submittedBefore (H : List JQEvent) (j1 j2 : Nat) : Prop :=
  eventsBefore H (.submitted j1) (.submitted j2)

/-- The induction invariant of the serializer trace: each job's events
occur at most once and in the order submit → start → settle → fulfil,
tickets are never rejected, the queue and running flag are consistent with
the trace, every submitted job is waiting, running or settled
(`complete`), waiting jobs are ordered by submission, fulfilment follows
settlement except after an error, an error permanently clears the running
job while leaving `_isRunning` set, and the two ordering properties `p1`
(no thunk starts before every earlier-submitted thunk's future settled)
and `p2` (tickets fulfil in submission order). -/
structure JQInv (s : JobQueue) : Prop where
  nodup : s.events.Nodup
  curStarted : ∀ j, s.current = some j →
    JQEvent.startJob j ∈ s.events ∧ JQEvent.futureSettled j ∉ s.events ∧
    s.isRunning = true
  startedNotSettled : ∀ j, JQEvent.startJob j ∈ s.events →
    JQEvent.futureSettled j ∈ s.events ∨ s.current = some j
  queued : ∀ q ∈ s.queue, JQEvent.submitted q ∈ s.events ∧
    JQEvent.startJob q ∉ s.events
  idle : s.isRunning = false → s.queue = [] ∧ s.current = none
  startSub : ∀ j, JQEvent.startJob j ∈ s.events →
    JQEvent.submitted j ∈ s.events
  settleStart : ∀ j, JQEvent.futureSettled j ∈ s.events →
    JQEvent.startJob j ∈ s.events
  fulfilSettle : ∀ j, JQEvent.ticketFulfil j ∈ s.events →
    JQEvent.futureSettled j ∈ s.events
  noReject : ∀ j, JQEvent.ticketReject j ∉ s.events
  waitNodup : (s.current.toList ++ s.queue).Nodup
  waitOrd : (s.current.toList ++ s.queue).Pairwise (submittedBefore s.events)
  complete : ∀ j, JQEvent.submitted j ∈ s.events →
    j ∈ s.current.toList ++ s.queue ∨ JQEvent.futureSettled j ∈ s.events
  fulf : s.errored = false → ∀ j, JQEvent.futureSettled j ∈ s.events →
    JQEvent.ticketFulfil j ∈ s.events
  errStuck : s.errored = true → s.current = none ∧ s.isRunning = true
  startBeforeSettle : ∀ j, JQEvent.futureSettled j ∈ s.events →
    eventsBefore s.events (JQEvent.startJob j) (JQEvent.futureSettled j)
  p1 : ∀ j1 j2, submittedBefore s.events j1 j2 →
    JQEvent.startJob j2 ∈ s.events →
    eventsBefore s.events (JQEvent.futureSettled j1) (JQEvent.startJob j2)
  p2 : ∀ j1 j2, submittedBefore s.events j1 j2 →
    JQEvent.ticketFulfil j2 ∈ s.events →
    eventsBefore s.events (JQEvent.ticketFulfil j1) (JQEvent.ticketFulfil j2)

/-! ### The frame buffer composite of `offscreen_target.ts`

The 2D canvas is a function from column and row to an RGBA pixel;
`getImageData` / `putImageData` translate between the canvas and the
rectangle-local `ImageData` array exactly as the browser does. -/

/-- One RGBA pixel (channel values are bytes). -/
structure Pix where
  r : Nat
  g : Nat
  b : Nat
  a : Nat
deriving Repr, DecidableEq

/-- A 2D pixel surface: column, row ↦ pixel. -/
def Canvas : Type := Nat → Nat → Pix

/-- `ctx.getImageData(x, y, w, h)`: the local array whose pixel `(i, j)` is
the canvas pixel `(x+i, y+j)`. -/
def getImageData (cv : Canvas) (x y : Nat) : Canvas := fun i j => cv (x + i) (y + j)

/-- The update loop of `addRect`: for `0 ≤ i < w`, `0 ≤ j < h` overwrite the
local array entry `(j*w + i)` with the RGB bytes `pixels[(j*w+i)*3 + {0,1,2}]`
and alpha `255`. -/
def patchPixels (arr : Canvas) (w h : Nat) (pixels : Nat → Nat) : Canvas := fun i j =>
  if i < w ∧ j < h then
    { r := pixels ((j * w + i) * 3 + 0)
    , g := pixels ((j * w + i) * 3 + 1)
    , b := pixels ((j * w + i) * 3 + 2)
    , a := 255 }
  else arr i j

/-- `ctx.putImageData(imgData, x, y)` for a `w × h` image: canvas pixels
inside the rectangle are replaced by the local array, all others are
untouched. -/
def putImageData (cv : Canvas) (x y w h : Nat) (arr : Canvas) : Canvas := fun px py =>
  if x ≤ px ∧ px < x + w ∧ y ≤ py ∧ py < y + h then arr (px - x) (py - y) else cv px py

/-- `RaytraceTarget.addRect(x, y, width, height, pixels)` on the primary
canvas — the whole method in `offscreen_target.ts`, and the de-band-disabled
path of the two-canvas variant (whose `_isBandless` guard skips the second
canvas entirely). -/
def addRect (cv : Canvas) (x y w h : Nat) (pixels : Nat → Nat) : Canvas :=
  putImageData cv x y w h (patchPixels (getImageData cv x y) w h pixels)

/-- The RGBA byte array view of a canvas of width `W`: byte index
`(row·W + col)·4 + channel`. -/
def byteAt (W : Nat) (cv : Canvas) (idx : Nat) : Nat :=
  let q := idx / 4
  let p := cv (q % W) (q / W)
  match idx % 4 with
  | 0 => p.r
  | 1 => p.g
  | 2 => p.b
  | _ => p.a

/-- The serialization properties of a `JobQueue` event trace: for any two
submissions with `j1` first, `j1`'s future settles before `j2`'s thunk
starts, tickets fulfil in submission order, and thunks start in submission
order (FIFO promotion). -/
def SerialTrace (H : List JQEvent) : Prop :=
  (∀ j1 j2, submittedBefore H j1 j2 → JQEvent.startJob j2 ∈ H →
    eventsBefore H (JQEvent.futureSettled j1) (JQEvent.startJob j2)) ∧
  (∀ j1 j2, submittedBefore H j1 j2 → JQEvent.ticketFulfil j2 ∈ H →
    eventsBefore H (JQEvent.ticketFulfil j1) (JQEvent.ticketFulfil j2)) ∧
  (∀ j1 j2, submittedBefore H j1 j2 → JQEvent.startJob j2 ∈ H →
    eventsBefore H (JQEvent.startJob j1) (JQEvent.startJob j2))

/-! ## Theorems -/

/-! ### Permutation lemmas for `shuffle` -/

theorem get_cons_set_perm (t : List α) :
    ∀ (m : Nat) (hm : m < t.length) (x : α), t.get ⟨m, hm⟩ :: t.set m x ~ x :: t := by
  induction t with
  | nil => intro m hm; simp at hm
  | cons y t' ih =>
    intro m hm x
    match m with
    | 0 => simpa using List.Perm.swap x y t'
    | m + 1 =>
      have hm' : m < t'.length := by simpa using hm
      calc t'.get ⟨m, hm'⟩ :: y :: t'.set m x
          ~ y :: t'.get ⟨m, hm'⟩ :: t'.set m x := List.Perm.swap y _ _
        _ ~ y :: x :: t' := (ih m hm' x).cons y
        _ ~ x :: y :: t' := List.Perm.swap x y t'

theorem set_set_perm : ∀ (xs : List α) (i j : Nat) (a b : α),
    xs.get? i = some a → xs.get? j = some b → (xs.set i b).set j a ~ xs := by
  intro xs
  induction xs with
  | nil => intro i j a b ha; simp at ha
  | cons x t ih =>
    intro i j a b ha hb
    match i, j with
    | 0, 0 =>
      simp only [List.get?_cons_zero, Option.some.injEq] at ha hb
      simp [← ha, ← hb]
    | 0, m + 1 =>
      simp only [List.get?_cons_zero, Option.some.injEq] at ha
      simp only [List.get?_cons_succ] at hb
      obtain ⟨hm, hget⟩ := List.get?_eq_some.mp hb
      subst ha
      have hp := get_cons_set_perm (t := t) m hm x
      rw [hget] at hp
      simpa [List.set] using hp
    | l + 1, 0 =>
      simp only [List.get?_cons_zero, Option.some.injEq] at hb
      simp only [List.get?_cons_succ] at ha
      obtain ⟨hl, hget⟩ := List.get?_eq_some.mp ha
      subst hb
      have hp := get_cons_set_perm (t := t) l hl x
      rw [hget] at hp
      simpa [List.set] using hp
    | l + 1, m + 1 =>
      simp only [List.get?_cons_succ] at ha hb
      simpa using (ih l m a b ha hb).cons x

theorem swapAt_perm (xs : List α) (i j : Nat) : swapAt xs i j ~ xs := by
  unfold swapAt
  match h1 : xs.get? i, h2 : xs.get? j with
  | some a, some b => exact set_set_perm xs i j a b h1 h2
  | some _, none => exact List.Perm.refl xs
  | none, some _ => exact List.Perm.refl xs
  | none, none => exact List.Perm.refl xs

theorem shuffleAux_perm : ∀ (draws : List Nat) (xs : List α) (i : Nat),
    shuffleAux xs draws i ~ xs := by
  intro draws
  induction draws with
  | nil => intro xs i; exact List.Perm.refl xs
  | cons d ds ih =>
    intro xs i
    exact (ih (swapAt xs i d) (i + 1)).trans (swapAt_perm xs i d)

theorem swapAt_cons_succ (x : α) (t : List α) (i j : Nat) :
    swapAt (x :: t) (i + 1) (j + 1) = x :: swapAt t i j := by
  unfold swapAt
  simp only [List.get?_cons_succ]
  match h1 : t.get? i, h2 : t.get? j with
  | some a, some b => simp [List.set]
  | some _, none => rfl
  | none, some _ => rfl
  | none, none => rfl

theorem shuffleAux_cons_shift : ∀ (ds : List Nat) (a : α) (rest : List α) (i : Nat),
    (∀ d ∈ ds, 1 ≤ d) →
    shuffleAux (a :: rest) ds (i + 1) = a :: shuffleAux rest (ds.map (· - 1)) i := by
  intro ds
  induction ds with
  | nil => intro a rest i _; rfl
  | cons d ds' ih =>
    intro a rest i h
    have hd : 1 ≤ d := h d (by simp)
    obtain ⟨e, rfl⟩ : ∃ e, d = e + 1 := ⟨d - 1, by omega⟩
    show shuffleAux (swapAt (a :: rest) (i + 1) (e + 1)) ds' (i + 2) = _
    rw [swapAt_cons_succ]
    rw [ih a (swapAt rest i e) (i + 1) (fun d hd => h d (by simp [hd]))]
    simp [shuffleAux]

theorem shuffle_reaches : ∀ (ys xs : List α), xs ~ ys →
    ∃ draws, draws.length = xs.length ∧ (∀ d ∈ draws, d < xs.length) ∧
      shuffle xs draws = ys := by
  intro ys
  induction ys with
  | nil =>
    intro xs h
    refine ⟨[], ?_, by simp, ?_⟩
    · simp [h.length_eq]
    · simpa [shuffle, shuffleAux] using h.eq_nil
  | cons y yt ih =>
    intro xs h
    have hy : y ∈ xs := h.symm.subset (List.mem_cons_self y yt)
    obtain ⟨⟨j, hj⟩, hget⟩ := List.mem_iff_get.mp hy
    match xs, h with
    | x :: t, h =>
      -- Swapping positions 0 and j brings y to the front.
      have key : ∃ rest, swapAt (x :: t) 0 j = y :: rest ∧ rest ~ yt ∧
          rest.length = t.length := by
        match j, hj, hget with
        | 0, hj, hget =>
          refine ⟨t, ?_, ?_, rfl⟩
          · simp only [List.get] at hget
            simp [swapAt, hget]
          · have := h
            rw [show (x :: t).get ⟨0, hj⟩ = x from rfl] at hget
            subst hget
            exact h.cons_inv
        | m + 1, hj, hget =>
          have hm : m < t.length := by simpa using hj
          rw [show (x :: t).get ⟨m + 1, hj⟩ = t.get ⟨m, hm⟩ from rfl] at hget
          refine ⟨t.set m x, ?_, ?_, by simp⟩
          · unfold swapAt
            simp only [List.get?_cons_zero, List.get?_cons_succ]
            rw [List.get?_eq_get hm, hget]
            simp [List.set]
          · have h1 : y :: t.set m x ~ x :: t := by
              have := get_cons_set_perm (t := t) m hm x
              rwa [hget] at this
            exact (h1.trans h).cons_inv
      obtain ⟨rest, hswap, hrest, hlen⟩ := key
      obtain ⟨ds, hdlen, hdbound, hdsh⟩ := ih rest hrest
      refine ⟨j :: ds.map (· + 1), ?_, ?_, ?_⟩
      · simp [hdlen, hlen]
      · intro d hd
        rcases List.mem_cons.mp hd with rfl | hd
        · simpa using hj
        · obtain ⟨e, he, rfl⟩ := List.mem_map.mp hd
          have := hdbound e he
          simp only [List.length_cons]
          omega
      · show shuffleAux (x :: t) (j :: ds.map (· + 1)) 0 = y :: yt
        show shuffleAux (swapAt (x :: t) 0 j) (ds.map (· + 1)) 1 = y :: yt
        rw [hswap]
        rw [show (1 : Nat) = 0 + 1 from rfl,
          shuffleAux_cons_shift (ds.map (· + 1)) y rest 0
            (by intro d hd; obtain ⟨e, _, rfl⟩ := List.mem_map.mp hd; omega)]
        have hmm : (ds.map (· + 1)).map (· - 1) = ds := by
          simp only [List.map_map]
          exact List.map_congr_left (fun d _ => by simp [Function.comp, id]) |>.trans
            (List.map_id ds)
        rw [hmm, show shuffleAux rest ds 0 = shuffle rest ds from rfl, hdsh]

/-- C8: the pending-queue shuffle at frame start always produces a
permutation of its input, and every permutation of the input is produced by
some sequence of `Math.random()` draws (each draw being a value
`Math.floor(Math.random() * xs.length)` can produce, i.e. `< xs.length`). -/
theorem shuffle_every_permutation_reachable (xs : List α) :
    (∀ draws : List Nat, shuffle xs draws ~ xs) ∧
    (∀ ys : List α, xs ~ ys →
      ∃ draws, draws.length = xs.length ∧ (∀ d ∈ draws, d < xs.length) ∧
        shuffle xs draws = ys) := by
  constructor
  · intro draws
    exact shuffleAux_perm draws xs 0
  · intro ys h
    exact shuffle_reaches ys xs h

/-- Witness for C8 at a concrete input: the permutation `[3, 1, 2]` of
`[1, 2, 3]` is reachable. -/
theorem shuffle_every_permutation_reachable_witness :
    ∃ draws, draws.length = ([1, 2, 3] : List Nat).length ∧
      (∀ d ∈ draws, d < ([1, 2, 3] : List Nat).length) ∧
      shuffle [1, 2, 3] draws = [3, 1, 2] :=
  (shuffle_every_permutation_reachable [1, 2, 3]).2 [3, 1, 2] (by decide)

/-! ### The block grid enumerated by `start` -/

theorem div_bounds (px bs : Nat) (hbs : 0 < bs) :
    px / bs * bs ≤ px ∧ px < px / bs * bs + bs := by
  have h := Nat.div_add_mod px bs
  have h2 := Nat.mod_lt px hbs
  have h3 : bs * (px / bs) = px / bs * bs := Nat.mul_comm _ _
  omega

theorem rowSum (bs : Nat) (hbs : 0 < bs) : ∀ w : Nat,
    ((List.range (ceilDiv w bs)).map fun x => min (w - x * bs) bs).sum = w := by
  intro w
  induction w using Nat.strong_induction_on with
  | _ w ih =>
    rcases Nat.eq_zero_or_pos w with rfl | hw
    · have h0 : ceilDiv 0 bs = 0 := by
        have := (ceilDiv_le_iff (a := 0) (k := 0) hbs).mpr (by omega)
        omega
      simp [h0]
    · by_cases hle : w ≤ bs
      · have h1 : ceilDiv w bs = 1 := by
          have hu : ceilDiv w bs ≤ 1 := (ceilDiv_le_iff hbs).mpr (by omega)
          have hl : 0 < ceilDiv w bs := (lt_ceilDiv_iff hbs).mpr (by omega)
          omega
        rw [h1, show List.range 1 = [0] from rfl]
        simp only [List.map_cons, List.map_nil, List.sum_cons, List.sum_nil]
        omega
      · push_neg at hle
        have hstep : ceilDiv w bs = ceilDiv (w - bs) bs + 1 := by
          unfold ceilDiv
          have h1 : w - bs + bs - 1 = w - 1 := by omega
          have h2 : w + bs - 1 = w - 1 + bs := by omega
          rw [h1, h2, Nat.add_div_right _ hbs]
        rw [hstep, List.range_succ_eq_map]
        simp only [List.map_cons, List.map_map, List.sum_cons, Nat.zero_mul,
          Nat.sub_zero]
        have hpt : (List.range (ceilDiv (w - bs) bs)).map
            ((fun x => min (w - x * bs) bs) ∘ Nat.succ) =
            (List.range (ceilDiv (w - bs) bs)).map fun x => min (w - bs - x * bs) bs := by
          refine List.map_congr_left fun x _ => ?_
          show min (w - (x + 1) * bs) bs = min (w - bs - x * bs) bs
          congr 1
          rw [Nat.succ_mul]
          omega
        rw [hpt, ih (w - bs) (by omega)]
        omega

theorem mem_enumBlocks {cfg : RenderConfig} {b : Rect4} :
    b ∈ enumBlocks cfg ↔
      ∃ bx, bx < ceilDiv cfg.width cfg.blockSize ∧
        ∃ bY, bY < ceilDiv cfg.height cfg.blockSize ∧ b = mkBlock cfg bx bY := by
  simp only [enumBlocks, List.mem_flatMap, List.mem_map, List.mem_range]
  constructor
  · rintro ⟨bY, hY, bx, hx, rfl⟩
    exact ⟨bx, hx, bY, hY, rfl⟩
  · rintro ⟨bx, hx, bY, hY, rfl⟩
    exact ⟨bY, hY, bx, hx, rfl⟩

theorem sum_map_map_flat {l : List β} {f : β → List γ} {g : γ → Nat} :
    ((l.flatMap f).map g).sum = (l.map fun a => ((f a).map g).sum).sum := by
  induction l with
  | nil => rfl
  | cons a l ih => simp [ih]

theorem sum_map_mul_right {l : List β} (f : β → Nat) (c : Nat) :
    (l.map fun x => f x * c).sum = (l.map f).sum * c := by
  induction l with
  | nil => simp
  | cons a l ih => simp [ih, Nat.add_mul]

theorem sum_map_mul_left {l : List β} (f : β → Nat) (c : Nat) :
    (l.map fun x => c * f x).sum = c * (l.map f).sum := by
  induction l with
  | nil => simp
  | cons a l ih => simp [ih, Nat.mul_add]

theorem enumBlocks_area (cfg : RenderConfig) (hbs : 0 < cfg.blockSize) :
    ((enumBlocks cfg).map fun b => b.width * b.height).sum =
      cfg.width * cfg.height := by
  unfold enumBlocks
  rw [sum_map_map_flat]
  have hrow : ∀ bY : Nat,
      (((List.range (ceilDiv cfg.width cfg.blockSize)).map fun bx =>
        mkBlock cfg bx bY).map fun b => b.width * b.height).sum =
      cfg.width * min (cfg.height - bY * cfg.blockSize) cfg.blockSize := by
    intro bY
    rw [List.map_map]
    have : ((fun b : Rect4 => b.width * b.height) ∘ fun bx => mkBlock cfg bx bY) =
        fun bx => min (cfg.width - bx * cfg.blockSize) cfg.blockSize *
          min (cfg.height - bY * cfg.blockSize) cfg.blockSize := rfl
    rw [this, sum_map_mul_right, rowSum cfg.blockSize hbs cfg.width]
  calc ((List.range (ceilDiv cfg.height cfg.blockSize)).map fun bY =>
        (((List.range (ceilDiv cfg.width cfg.blockSize)).map fun bx =>
          mkBlock cfg bx bY).map fun b => b.width * b.height).sum).sum
      = ((List.range (ceilDiv cfg.height cfg.blockSize)).map fun bY =>
          cfg.width * min (cfg.height - bY * cfg.blockSize) cfg.blockSize).sum := by
        exact congrArg List.sum (List.map_congr_left fun bY _ => hrow bY)
    _ = cfg.width * cfg.height := by
        rw [sum_map_mul_left, rowSum cfg.blockSize hbs cfg.height]

theorem contains_coord {bs w bx px : Nat} (hbs : 0 < bs)
    (h1 : bx * bs ≤ px) (h2 : px < bx * bs + min (w - bx * bs) bs) :
    px / bs = bx := by
  have h3 : px < bx * bs + bs := by
    have := Nat.min_le_right (w - bx * bs) bs
    omega
  exact Nat.div_eq_of_lt_le h1 (by simpa [Nat.succ_mul] using h3)

theorem enumBlocks_tiles (cfg : RenderConfig) (hbs : 0 < cfg.blockSize)
    {px py : Nat} (hx : px < cfg.width) (hy : py < cfg.height) :
    ∃! b, b ∈ enumBlocks cfg ∧ b.contains px py := by
  have hxb := div_bounds px cfg.blockSize hbs
  have hyb := div_bounds py cfg.blockSize hbs
  have hxlt : px / cfg.blockSize < ceilDiv cfg.width cfg.blockSize :=
    (lt_ceilDiv_iff hbs).mpr (by omega)
  have hylt : py / cfg.blockSize < ceilDiv cfg.height cfg.blockSize :=
    (lt_ceilDiv_iff hbs).mpr (by omega)
  refine ⟨mkBlock cfg (px / cfg.blockSize) (py / cfg.blockSize), ⟨?_, ?_⟩, ?_⟩
  · exact mem_enumBlocks.mpr ⟨_, hxlt, _, hylt, rfl⟩
  · refine ⟨hxb.1, ?_, hyb.1, ?_⟩
    · show px < px / cfg.blockSize * cfg.blockSize +
        min (cfg.width - px / cfg.blockSize * cfg.blockSize) cfg.blockSize
      rcases Nat.le_total (cfg.width - px / cfg.blockSize * cfg.blockSize)
          cfg.blockSize with hm | hm
      · rw [Nat.min_eq_left hm]
        omega
      · rw [Nat.min_eq_right hm]
        omega
    · show py < py / cfg.blockSize * cfg.blockSize +
        min (cfg.height - py / cfg.blockSize * cfg.blockSize) cfg.blockSize
      rcases Nat.le_total (cfg.height - py / cfg.blockSize * cfg.blockSize)
          cfg.blockSize with hm | hm
      · rw [Nat.min_eq_left hm]
        omega
      · rw [Nat.min_eq_right hm]
        omega
  · rintro b' ⟨hmem, hcont⟩
    obtain ⟨bx, hbx, bY, hbY, rfl⟩ := mem_enumBlocks.mp hmem
    obtain ⟨c1, c2, c3, c4⟩ := hcont
    have ex : px / cfg.blockSize = bx := contains_coord hbs c1 c2
    have ey : py / cfg.blockSize = bY := contains_coord hbs c3 c4
    rw [ex, ey]

theorem enqueueLoop_numTotal (ids : List Nat) (s : RenderManager) :
    (enqueueLoop ids s).numTotalJobs = s.numTotalJobs := by
  induction ids generalizing s with
  | nil => rfl
  | cons id rest ih =>
    unfold enqueueLoop
    match h1 : lookupInprog s id, h2 : s.todos with
    | none, job :: todosRest => rw [ih]
    | none, [] => rw [ih]
    | some _, _ => rw [ih]

theorem enqueueAll_numTotal (s : RenderManager) :
    (enqueueAll s).numTotalJobs = s.numTotalJobs :=
  enqueueLoop_numTotal s.renderers s

/-- C6: for a configuration with `block_size ≥ 1` and a positive viewport,
`start` enumerates exactly `⌈w/bs⌉ · ⌈h/bs⌉` blocks — row-major, the block
of grid cell `(bx, by)` sitting at origin `(bx·bs, by·bs)` with size
`(min(bs, w − bx·bs), min(bs, h − by·bs))` — every block has positive width
and height, every viewport pixel lies in exactly one block (the blocks tile
the viewport disjointly), the total pixel area is `w · h`, and
`_numTotalJobs` is set to the block count. -/
theorem start_block_enumeration (cfg : RenderConfig) (draws : List Nat)
    (s : RenderManager) (hbs : 1 ≤ cfg.blockSize) (hw : 1 ≤ cfg.width)
    (hh : 1 ≤ cfg.height) :
    (enumBlocks cfg).length =
        ceilDiv cfg.width cfg.blockSize * ceilDiv cfg.height cfg.blockSize
    ∧ (∀ b : Rect4, b ∈ enumBlocks cfg ↔
        ∃ bx, bx < ceilDiv cfg.width cfg.blockSize ∧
          ∃ bY, bY < ceilDiv cfg.height cfg.blockSize ∧ b = mkBlock cfg bx bY)
    ∧ (∀ b ∈ enumBlocks cfg, 0 < b.width ∧ 0 < b.height)
    ∧ (∀ px py, px < cfg.width → py < cfg.height →
        ∃! b, b ∈ enumBlocks cfg ∧ b.contains px py)
    ∧ ((enumBlocks cfg).map fun b => b.width * b.height).sum =
        cfg.width * cfg.height
    ∧ (startRM cfg draws s).numTotalJobs =
        ceilDiv cfg.width cfg.blockSize * ceilDiv cfg.height cfg.blockSize := by
  refine ⟨?_, fun b => mem_enumBlocks, ?_, fun px py hx hy => enumBlocks_tiles cfg hbs hx hy,
    enumBlocks_area cfg hbs, ?_⟩
  · unfold enumBlocks
    rw [List.length_flatMap]
    have h1 : (List.range (ceilDiv cfg.height cfg.blockSize)).map
        (List.length ∘ fun bY => (List.range (ceilDiv cfg.width cfg.blockSize)).map
          fun bx => mkBlock cfg bx bY) =
        (List.range (ceilDiv cfg.height cfg.blockSize)).map fun _ =>
          ceilDiv cfg.width cfg.blockSize :=
      List.map_congr_left fun bY _ => by simp [Function.comp]
    rw [h1]
    simp [List.map_const', Nat.mul_comm]
  · intro b hb
    obtain ⟨bx, hbx, bY, hbY, rfl⟩ := mem_enumBlocks.mp hb
    have h1 : bx * cfg.blockSize < cfg.width := (lt_ceilDiv_iff hbs).mp hbx
    have h2 : bY * cfg.blockSize < cfg.height := (lt_ceilDiv_iff hbs).mp hbY
    constructor
    · show 0 < min (cfg.width - bx * cfg.blockSize) cfg.blockSize
      omega
    · show 0 < min (cfg.height - bY * cfg.blockSize) cfg.blockSize
      omega
  · simp only [startRM, enqueueAll_numTotal]

/-- Witness for C6 at `{bs = 128, w = 256, h = 256}`: four blocks. -/
theorem start_block_enumeration_witness :
    (enumBlocks ⟨128, 256, 256, 1, false⟩).length = 4 :=
  (start_block_enumeration ⟨128, 256, 256, 1, false⟩ [] (initRM 1)
    (by decide) (by decide) (by decide)).1.trans (by decide)

/-! ### `start` performs no configuration validation (C3) -/

theorem ceilDiv_zero_left {bs : Nat} (hbs : 0 < bs) : ceilDiv 0 bs = 0 := by
  have := (ceilDiv_le_iff (a := 0) (k := 0) hbs).mpr (by omega)
  omega

theorem enumBlocks_zero (cfg : RenderConfig) (hbs : 0 < cfg.blockSize)
    (hzero : cfg.width = 0 ∨ cfg.height = 0) : enumBlocks cfg = [] := by
  rcases hzero with h0 | h0
  · unfold enumBlocks
    rw [h0, ceilDiv_zero_left hbs]
    simp
  · unfold enumBlocks
    rw [h0, ceilDiv_zero_left hbs]
    simp

theorem shuffleAux_nil (draws : List Nat) : ∀ i, shuffleAux ([] : List α) draws i = [] := by
  induction draws with
  | nil => intro i; rfl
  | cons d ds ih =>
    intro i
    show shuffleAux (swapAt [] i d) ds (i + 1) = []
    have : swapAt ([] : List α) i d = [] := by
      unfold swapAt
      simp
    rw [this]
    exact ih (i + 1)

theorem enqueueLoop_todos_nil : ∀ (ids : List Nat) (s : RenderManager),
    s.todos = [] → enqueueLoop ids s = s := by
  intro ids
  induction ids with
  | nil => intro s _; rfl
  | cons id rest ih =>
    intro s h
    unfold enqueueLoop
    match h1 : lookupInprog s id, h2 : s.todos with
    | none, job :: todosRest => rw [h] at h2; cases h2
    | none, [] => exact ih s h
    | some _, _ => exact ih s h

/-- Counterexample to C3 as stated: `start` with a zero-width viewport does
not reject; it changes the scheduler state (a new frame buffer is installed
and the counters are reset). -/
theorem start_zero_viewport_counterexample :
    startRM ⟨1, 0, 1, 1, false⟩ [] (initRM 1) ≠ initRM 1 := by decide

/-- C3 amended: `start()` performs no configuration validation.  With
`block_size ≥ 1` and a zero-sized viewport (`width = 0` or `height = 0`),
`start(config)` silently begins an *empty* frame: it enumerates zero
blocks, sets `total_count = 0` and `done_count = 0`, empties the pending
queue, installs a fresh frame buffer, composites nothing, and emits no
`queued`, `unqueued`, `progress` or `done` event (the `done` event is only
ever emitted from a result continuation, and there is none).  (With
`block_size = 0` and a positive dimension the source's enumeration loop
does not even terminate, since `Math.ceil(w / 0) = Infinity`; that case is
outside this model, whose `start` step requires `block_size ≥ 1`.) -/
theorem start_zero_viewport (cfg : RenderConfig) (draws : List Nat)
    (s : RenderManager) (hbs : 1 ≤ cfg.blockSize)
    (hzero : cfg.width = 0 ∨ cfg.height = 0) :
    (startRM cfg draws s).events = s.events ∧
    (startRM cfg draws s).numTotalJobs = 0 ∧
    (startRM cfg draws s).numDoneJobs = 0 ∧
    (startRM cfg draws s).todos = [] ∧
    (startRM cfg draws s).writes = s.writes ∧
    (startRM cfg draws s).pending = s.pending ∧
    (startRM cfg draws s).target = some s.nextTarget := by
  have he : enumBlocks cfg = [] := enumBlocks_zero cfg hbs hzero
  have hsh : shuffle (enumBlocks cfg) draws = [] := by
    rw [he]
    exact shuffleAux_nil draws 0
  have hnum : ceilDiv cfg.width cfg.blockSize * ceilDiv cfg.height cfg.blockSize = 0 := by
    rcases hzero with h0 | h0
    · rw [h0, ceilDiv_zero_left hbs, Nat.zero_mul]
    · rw [h0, ceilDiv_zero_left hbs, Nat.mul_zero]
  unfold startRM
  by_cases hlt : s.numDoneJobs < s.numTotalJobs
  · simp only [if_pos hlt, hsh, enqueueAll]
    rw [enqueueLoop_todos_nil _ _ rfl]
    exact ⟨rfl, hnum, rfl, rfl, rfl, rfl, rfl⟩
  · simp only [if_neg hlt, hsh, enqueueAll]
    rw [enqueueLoop_todos_nil _ _ rfl]
    exact ⟨rfl, hnum, rfl, rfl, rfl, rfl, rfl⟩

/-- Witness for the amended C3: a concrete zero-width `start` emits nothing
and resets the counters. -/
theorem start_zero_viewport_witness :
    (startRM ⟨1, 0, 1, 1, false⟩ [] (initRM 1)).events = (initRM 1).events ∧
    (startRM ⟨1, 0, 1, 1, false⟩ [] (initRM 1)).numTotalJobs = 0 ∧
    (startRM ⟨1, 0, 1, 1, false⟩ [] (initRM 1)).numDoneJobs = 0 ∧
    (startRM ⟨1, 0, 1, 1, false⟩ [] (initRM 1)).todos = [] ∧
    (startRM ⟨1, 0, 1, 1, false⟩ [] (initRM 1)).writes = (initRM 1).writes ∧
    (startRM ⟨1, 0, 1, 1, false⟩ [] (initRM 1)).pending = (initRM 1).pending ∧
    (startRM ⟨1, 0, 1, 1, false⟩ [] (initRM 1)).target = some (initRM 1).nextTarget :=
  start_zero_viewport ⟨1, 0, 1, 1, false⟩ [] (initRM 1) (by decide) (by decide)

/-! ### Shrinking the pool (C7) -/

theorem reclaimLoop_le (c : Nat) (rs : List Nat) (s : RenderManager)
    (h : rs.length ≤ c) : reclaimLoop c rs s = s := by
  match rs with
  | [] => rfl
  | id :: rest =>
    unfold reclaimLoop
    rw [if_neg (by simp at h; omega)]

theorem reclaimLoop_spec (c : Nat) : ∀ (rs : List Nat) (s : RenderManager),
    s.renderers = rs →
    reclaimLoop c rs s =
      { s with
        renderers := rs.drop (rs.length - c)
      , todos := s.todos ++ ((rs.take (rs.length - c)).filterMap fun id => lookupInprog s id)
      , events := s.events ++
          ((rs.take (rs.length - c)).filterMap fun id => lookupInprog s id).map REvent.unqueued
      , terminated := s.terminated ++ rs.take (rs.length - c) } := by
  intro rs
  induction rs with
  | nil =>
    intro s hrs
    show s = _
    simp only [List.take_nil, List.drop_nil, List.filterMap_nil, List.map_nil,
      List.append_nil]
    rw [← hrs]
  | cons id rest ih =>
    intro s hrs
    by_cases hc : c < rest.length + 1
    · unfold reclaimLoop
      rw [if_pos hc]
      rw [ih _ rfl]
      have hk : (id :: rest).length - c = (rest.length - c) + 1 := by
        simp only [List.length_cons]
        omega
      rw [hk]
      simp only [List.take_succ_cons, List.drop_succ_cons, List.filterMap_cons]
      have hlook : ∀ i : Nat,
          lookupInprog { s with
            renderers := rest
          , todos := s.todos ++ (lookupInprog s id).toList
          , events := s.events ++ ((lookupInprog s id).toList.map REvent.unqueued)
          , terminated := s.terminated ++ [id] } i = lookupInprog s i := fun _ => rfl
      simp only [hlook]
      match hl : lookupInprog s id with
      | some b =>
        simp only [Option.toList_some]
        congr 1 <;> simp
      | none =>
        simp only [Option.toList_none]
        congr 1 <;> simp
    · unfold reclaimLoop
      rw [if_neg hc]
      have hk : (id :: rest).length - c = 0 := by
        simp only [List.length_cons]
        omega
      rw [hk]
      simp [← hrs]

/-- Counterexample to C7 as stated: after `start` dispatches the single
block to the first instance (slot `0`), `setNumCores(1)` removes slot `0` —
the *head* of the pool (`Array.shift()`), not the tail slot `1`; the claim's
tail-popping would instead leave the pool `[0]`. -/
theorem setNumCores_pops_head_counterexample :
    ((setNumCores 1 (startRM ⟨4, 4, 4, 1, false⟩ [0] (initRM 2))).1.renderers = [1] ∧
     (setNumCores 1 (startRM ⟨4, 4, 4, 1, false⟩ [0] (initRM 2))).1.terminated = [0]) ∧
    (setNumCores 1 (startRM ⟨4, 4, 4, 1, false⟩ [0] (initRM 2))).1.renderers ≠ [0] := by
  decide

/-- C7 amended: when the pool is shrunk to `c < length`, workers are popped
from the *head* of the pool in order (`shift()`); each popped worker with
an in-flight block contributes that block to the pending queue exactly once
with exactly one `unqueued` event, in pop order, and every popped worker is
terminated.  Nothing else changes: the remaining pool is the original tail,
the slot registry, pending continuations, counters and frame buffer are
untouched — so an immediately following shrink can only pop the *remaining*
slots and can never re-enqueue a block twice. -/
theorem setNumCores_shrink (c : Nat) (s : RenderManager)
    (h : c < s.renderers.length) :
    (setNumCores c s).2 = none ∧
    (setNumCores c s).1 =
      { s with
        renderers := s.renderers.drop (s.renderers.length - c)
      , todos := s.todos ++
          ((s.renderers.take (s.renderers.length - c)).filterMap fun id => lookupInprog s id)
      , events := s.events ++
          ((s.renderers.take (s.renderers.length - c)).filterMap
            fun id => lookupInprog s id).map REvent.unqueued
      , terminated := s.terminated ++ s.renderers.take (s.renderers.length - c) } := by
  unfold setNumCores
  rw [if_pos h]
  exact ⟨rfl, reclaimLoop_spec c s.renderers s rfl⟩

/-- Witness for the amended C7 at a concrete shrink. -/
theorem setNumCores_shrink_witness :
    (setNumCores 1 (startRM ⟨4, 4, 4, 1, false⟩ [0] (initRM 2))).2 = none :=
  (setNumCores_shrink 1 (startRM ⟨4, 4, 4, 1, false⟩ [0] (initRM 2)) (by decide)).1

/-! ### Growing the pool with no frame buffer (C10) -/

/-- C10: if `setNumCores` grows the pool before `start()` has ever run
(`this._target` is undefined), the grow loop first pushes one fresh
instance onto the pool and then throws a `TypeError` reading
`target.width`; the partially updated pool keeps the pushed instance, so
the failure is not atomic on the pool state. -/
theorem setNumCores_grow_no_target (c : Nat) (s : RenderManager)
    (htgt : s.target = none) (hc : s.renderers.length < c) :
    (setNumCores c s).2 = some RMError.targetUndefined ∧
    (setNumCores c s).1.renderers = s.renderers ++ [s.nextSlot] ∧
    (setNumCores c s).1.slots =
      s.slots ++ [{ id := s.nextSlot, inprogress := none }] := by
  unfold setNumCores
  rw [if_neg (by omega), if_pos hc, htgt]
  exact ⟨rfl, rfl, rfl⟩

/-- Witness for C10: growing a freshly constructed empty pool fails with
the modelled `TypeError` after appending one instance. -/
theorem setNumCores_grow_no_target_witness :
    (setNumCores 1 (initRM 0)).2 = some RMError.targetUndefined :=
  (setNumCores_grow_no_target 1 (initRM 0) rfl (by decide)).1

/-! ### Slot-registry lemmas -/

theorem setInprog_map_id (slots : List Slot) (id : Nat) (v : Option Rect4) :
    (setInprog slots id v).map Slot.id = slots.map Slot.id := by
  unfold setInprog
  rw [List.map_map]
  refine List.map_congr_left fun sl _ => ?_
  show Slot.id (if sl.id == id then { sl with inprogress := v } else sl) = sl.id
  split <;> rfl

theorem clearInprogs_map_id (slots : List Slot) (ids : List Nat) :
    (clearInprogs slots ids).map Slot.id = slots.map Slot.id := by
  unfold clearInprogs
  rw [List.map_map]
  refine List.map_congr_left fun sl _ => ?_
  show Slot.id (if sl.id ∈ ids then { sl with inprogress := none } else sl) = sl.id
  split <;> rfl

theorem mkSlots_inprog_none {n f : Nat} : ∀ sl ∈ mkSlots n f, sl.inprogress = none := by
  intro sl hsl
  obtain ⟨i, _, rfl⟩ := List.mem_map.mp hsl
  rfl

theorem mkSlots_map_id {n f : Nat} :
    (mkSlots n f).map Slot.id = (List.range n).map fun i => f + i := by
  unfold mkSlots
  rw [List.map_map]
  rfl

theorem inprogOf_not_mem {slots : List Slot} {id : Nat}
    (h : id ∉ slots.map Slot.id) : inprogOf slots id = none := by
  induction slots with
  | nil => rfl
  | cons sl rest ih =>
    simp only [List.map_cons, List.mem_cons, not_or] at h
    unfold inprogOf
    rw [List.find?_cons_of_neg _ (by simpa using fun he => h.1 he.symm)]
    exact ih h.2

theorem setInprog_cons_pos {sl : Slot} {rest : List Slot} {id : Nat}
    {v : Option Rect4} (h : sl.id = id) :
    setInprog (sl :: rest) id v = { sl with inprogress := v } :: setInprog rest id v := by
  unfold setInprog
  simp [h]

theorem setInprog_cons_neg {sl : Slot} {rest : List Slot} {id : Nat}
    {v : Option Rect4} (h : ¬ sl.id = id) :
    setInprog (sl :: rest) id v = sl :: setInprog rest id v := by
  unfold setInprog
  simp [h]

theorem inprogOf_cons_pos {t : Slot} {rest : List Slot} {id : Nat}
    (h : t.id = id) : inprogOf (t :: rest) id = t.inprogress := by
  unfold inprogOf
  rw [List.find?_cons_of_pos _ (by simpa using h)]

theorem inprogOf_cons_neg {t : Slot} {rest : List Slot} {id : Nat}
    (h : ¬ t.id = id) : inprogOf (t :: rest) id = inprogOf rest id := by
  unfold inprogOf
  rw [List.find?_cons_of_neg _ (by simpa using h)]

theorem inprogOf_set_self {slots : List Slot} {id : Nat} (v : Option Rect4)
    (h : id ∈ slots.map Slot.id) : inprogOf (setInprog slots id v) id = v := by
  induction slots with
  | nil => simp at h
  | cons sl rest ih =>
    by_cases hsl : sl.id = id
    · rw [setInprog_cons_pos hsl,
        inprogOf_cons_pos (t := { sl with inprogress := v }) hsl]
    · simp only [List.map_cons, List.mem_cons] at h
      rcases h with h | h
      · exact absurd h.symm hsl
      · rw [setInprog_cons_neg hsl, inprogOf_cons_neg hsl]
        exact ih h

theorem inprogOf_set_other {slots : List Slot} {id id' : Nat} (v : Option Rect4)
    (h : id' ≠ id) : inprogOf (setInprog slots id v) id' = inprogOf slots id' := by
  induction slots with
  | nil => rfl
  | cons sl rest ih =>
    by_cases hsl : sl.id = id
    · have hne : ¬ ({ sl with inprogress := v } : Slot).id = id' := by
        show ¬ sl.id = id'
        rw [hsl]
        exact fun he => h he.symm
      rw [setInprog_cons_pos hsl, inprogOf_cons_neg hne,
        inprogOf_cons_neg (show ¬ sl.id = id' by rw [hsl]; exact fun he => h he.symm)]
      exact ih
    · by_cases hsl' : sl.id = id'
      · rw [setInprog_cons_neg hsl, inprogOf_cons_pos hsl', inprogOf_cons_pos hsl']
      · rw [setInprog_cons_neg hsl, inprogOf_cons_neg hsl', inprogOf_cons_neg hsl']
        exact ih

theorem inprogOf_append_none {l extra : List Slot}
    (h : ∀ sl ∈ extra, sl.inprogress = none) (id : Nat) :
    inprogOf (l ++ extra) id = inprogOf l id := by
  unfold inprogOf
  rw [List.find?_append]
  cases h1 : l.find? (fun sl => sl.id == id) with
  | some sl => rfl
  | none =>
    cases h2 : extra.find? (fun sl => sl.id == id) with
    | some sl => exact h sl (List.mem_of_find?_eq_some h2)
    | none => rfl

theorem clearInprogs_cons_pos {sl : Slot} {rest : List Slot} {ids : List Nat}
    (h : sl.id ∈ ids) :
    clearInprogs (sl :: rest) ids = { sl with inprogress := none } :: clearInprogs rest ids := by
  unfold clearInprogs
  simp [h]

theorem clearInprogs_cons_neg {sl : Slot} {rest : List Slot} {ids : List Nat}
    (h : sl.id ∉ ids) :
    clearInprogs (sl :: rest) ids = sl :: clearInprogs rest ids := by
  unfold clearInprogs
  simp [h]

theorem inprogOf_clear_mem {slots : List Slot} {ids : List Nat} {id : Nat}
    (h : id ∈ ids) : inprogOf (clearInprogs slots ids) id = none := by
  induction slots with
  | nil => rfl
  | cons sl rest ih =>
    by_cases hsl : sl.id = id
    · rw [clearInprogs_cons_pos (by rw [hsl]; exact h),
        inprogOf_cons_pos (t := { sl with inprogress := none }) hsl]
    · by_cases hm : sl.id ∈ ids
      · rw [clearInprogs_cons_pos hm,
          inprogOf_cons_neg (t := { sl with inprogress := none }) hsl]
        exact ih
      · rw [clearInprogs_cons_neg hm, inprogOf_cons_neg hsl]
        exact ih

theorem inprogOf_clear_not_mem {slots : List Slot} {ids : List Nat} {id : Nat}
    (h : id ∉ ids) : inprogOf (clearInprogs slots ids) id = inprogOf slots id := by
  induction slots with
  | nil => rfl
  | cons sl rest ih =>
    by_cases hsl : sl.id = id
    · rw [clearInprogs_cons_neg (by rw [hsl]; exact h), inprogOf_cons_pos hsl,
        inprogOf_cons_pos hsl]
    · by_cases hm : sl.id ∈ ids
      · rw [clearInprogs_cons_pos hm,
          inprogOf_cons_neg (t := { sl with inprogress := none }) hsl,
          inprogOf_cons_neg hsl]
        exact ih
      · rw [clearInprogs_cons_neg hm, inprogOf_cons_neg hsl, inprogOf_cons_neg hsl]
        exact ih

theorem countP_update {l : List Nat} {p q : Nat → Bool} {a : Nat}
    (hnd : l.Nodup) (ha : a ∈ l) (hsame : ∀ b ∈ l, b ≠ a → q b = p b) :
    l.countP q + (if p a then 1 else 0) = l.countP p + (if q a then 1 else 0) := by
  have hperm := List.perm_cons_erase ha
  rw [hperm.countP_eq p, hperm.countP_eq q]
  simp only [List.countP_cons]
  have he : (l.erase a).countP q = (l.erase a).countP p := by
    refine List.countP_congr fun b hb => ?_
    have hmem := (hnd.mem_erase_iff).mp hb
    rw [hsame b hmem.2 hmem.1]
  rw [he]
  cases hp : p a <;> cases hq : q a <;> simp

/-! ### Preservation of the scheduler invariant: dispatch -/

theorem enqueueLoop_WF : ∀ (ids : List Nat) (s : RenderManager),
    WF s → (∀ id ∈ ids, id ∈ s.renderers) → WF (enqueueLoop ids s) := by
  intro ids
  induction ids with
  | nil =>
    intro s hWF _
    exact hWF
  | cons id rest ih =>
    intro s hWF hsub
    have hid : id ∈ s.renderers := hsub id (List.mem_cons_self id rest)
    unfold enqueueLoop
    match h1 : lookupInprog s id, h2 : s.todos with
    | some v, _ => exact ih s hWF fun i hi => hsub i (List.mem_cons_of_mem _ hi)
    | none, [] => exact ih s hWF fun i hi => hsub i (List.mem_cons_of_mem _ hi)
    | none, job :: todosRest =>
      have h1' : inprogOf s.slots id = none := h1
      refine ih _ ?_ fun i hi => hsub i (List.mem_cons_of_mem _ hi)
      refine
        { count := ?_
        , poolNodup := hWF.poolNodup
        , slotIdsNodup := by
            show ((setInprog s.slots id (some job)).map Slot.id).Nodup
            rw [setInprog_map_id]
            exact hWF.slotIdsNodup
        , poolInSlots := by
            intro i hi
            show i ∈ (setInprog s.slots id (some job)).map Slot.id
            rw [setInprog_map_id]
            exact hWF.poolInSlots i hi
        , slotFresh := by
            intro i hi
            rw [show (setInprog s.slots id (some job)).map Slot.id =
              s.slots.map Slot.id from setInprog_map_id _ _ _] at hi
            exact hWF.slotFresh i hi
        , termFresh := hWF.termFresh
        , live := ?_
        , liveSep := ?_
        , cbFresh := ?_
        , cbNodup := ?_
        , tgtNone := ?_ }
      · -- the accounting equation
        show s.numDoneJobs +
          s.renderers.countP (fun i => (inprogOf (setInprog s.slots id (some job)) i).isSome) +
          todosRest.length = s.numTotalJobs
        have hkey := countP_update (l := s.renderers)
          (p := fun i => (inprogOf s.slots i).isSome)
          (q := fun i => (inprogOf (setInprog s.slots id (some job)) i).isSome)
          hWF.poolNodup hid
          (fun b _ hbne => by
            show (inprogOf (setInprog s.slots id (some job)) b).isSome =
              (inprogOf s.slots b).isSome
            rw [inprogOf_set_other _ hbne])
        have hp : (inprogOf s.slots id).isSome = false := by
          rw [h1']
          rfl
        have hp' : (inprogOf (setInprog s.slots id (some job)) id).isSome = true := by
          rw [inprogOf_set_self _ (hWF.poolInSlots id hid)]
          rfl
        simp [hp, hp'] at hkey
        have hc := hWF.count
        unfold inFlight at hc
        have hlen : s.todos.length = todosRest.length + 1 := by
          rw [h2]
          rfl
        omega
      · -- live continuations still match
        intro c hc halive
        rcases List.mem_append.mp hc with hold | hnew
        · obtain ⟨hr, hl, ht⟩ := hWF.live c hold halive
          refine ⟨hr, ?_, ht⟩
          have hcne : c.slot ≠ id := by
            intro he
            have hl' : inprogOf s.slots id = some c.job := by
              rw [← he]
              exact hl
            rw [h1'] at hl'
            cases hl'
          show inprogOf (setInprog s.slots id (some job)) c.slot = some c.job
          rw [inprogOf_set_other _ hcne]
          exact hl
        · have hceq : c = { cb := s.nextCb, slot := id, job := job, tgt := s.target } := by
            simpa using hnew
          subst hceq
          refine ⟨hid, ?_, rfl⟩
          show inprogOf (setInprog s.slots id (some job)) id = some job
          exact inprogOf_set_self _ (hWF.poolInSlots id hid)
      · -- live continuations of distinct instances
        intro c hc c' hc' halive hne
        rcases List.mem_append.mp hc with hcold | hcnew
        · rcases List.mem_append.mp hc' with hc'old | hc'new
          · exact hWF.liveSep c hcold c' hc'old halive hne
          · have hc'eq : c' = { cb := s.nextCb, slot := id, job := job, tgt := s.target } := by
              simpa using hc'new
            subst hc'eq
            intro he
            have he' : c.slot = id := he
            obtain ⟨_, hl, _⟩ := hWF.live c hcold halive
            have hl' : inprogOf s.slots id = some c.job := by
              rw [← he']
              exact hl
            rw [h1'] at hl'
            simp at hl'
        · have hceq : c = { cb := s.nextCb, slot := id, job := job, tgt := s.target } := by
            simpa using hcnew
          subst hceq
          rcases List.mem_append.mp hc' with hc'old | hc'new
          · intro he
            have he' : id = c'.slot := he
            have halive' : c'.slot ∉ s.terminated := by
              rw [← he']
              exact halive
            obtain ⟨_, hl, _⟩ := hWF.live c' hc'old halive'
            have hl' : inprogOf s.slots id = some c'.job := by
              rw [he']
              exact hl
            rw [h1'] at hl'
            simp at hl'
          · have hc'eq : c' = { cb := s.nextCb, slot := id, job := job, tgt := s.target } := by
              simpa using hc'new
            subst hc'eq
            exact absurd rfl hne
      · -- ticket identifiers remain fresh
        intro c hc
        rcases List.mem_append.mp hc with hold | hnew
        · exact Nat.lt_trans (hWF.cbFresh c hold) (Nat.lt_succ_self _)
        · have hceq : c = { cb := s.nextCb, slot := id, job := job, tgt := s.target } := by
            simpa using hnew
          subst hceq
          exact Nat.lt_succ_self _
      · -- ticket identifiers stay distinct
        show ((s.pending ++
          [({ cb := s.nextCb, slot := id, job := job, tgt := s.target } : Callback)]).map
            Callback.cb).Nodup
        rw [List.map_append]
        refine List.Nodup.append hWF.cbNodup (List.nodup_singleton _) ?_
        intro a ha hb
        simp only [List.map_cons, List.map_nil, List.mem_cons, List.not_mem_nil,
          or_false] at hb
        obtain ⟨c0, hc0, rfl⟩ := List.mem_map.mp ha
        have := hWF.cbFresh c0 hc0
        omega
      · -- a dispatch cannot happen with no frame buffer
        intro htn
        have hcontra := (hWF.tgtNone htn).2.1
        rw [h2] at hcontra
        exact absurd hcontra (List.cons_ne_nil _ _)

theorem enqueueAll_WF (s : RenderManager) (h : WF s) : WF (enqueueAll s) :=
  enqueueLoop_WF s.renderers s h fun _ hi => hi

theorem inprogOf_all_none {slots : List Slot}
    (h : ∀ sl ∈ slots, sl.inprogress = none) (id : Nat) : inprogOf slots id = none := by
  have := inprogOf_append_none (l := []) h id
  simpa using this

theorem length_filterMap_countP {l : List α} {f : α → Option β} :
    (l.filterMap f).length = l.countP fun a => (f a).isSome := by
  induction l with
  | nil => rfl
  | cons a l ih =>
    simp only [List.filterMap_cons, List.countP_cons]
    cases h : f a <;> simp [ih, h]

theorem enumBlocks_len (cfg : RenderConfig) :
    (enumBlocks cfg).length =
      ceilDiv cfg.width cfg.blockSize * ceilDiv cfg.height cfg.blockSize := by
  unfold enumBlocks
  rw [List.length_flatMap]
  have h1 : (List.range (ceilDiv cfg.height cfg.blockSize)).map
      (List.length ∘ fun bY => (List.range (ceilDiv cfg.width cfg.blockSize)).map
        fun bx => mkBlock cfg bx bY) =
      (List.range (ceilDiv cfg.height cfg.blockSize)).map fun _ =>
        ceilDiv cfg.width cfg.blockSize :=
    List.map_congr_left fun bY _ => by simp [Function.comp]
  rw [h1]
  simp [List.map_const', Nat.mul_comm]

/-! ### Preservation of the scheduler invariant: `start` -/

theorem startRM_WF (cfg : RenderConfig) (draws : List Nat) (s : RenderManager)
    (hWF : WF s) : WF (startRM cfg draws s) := by
  have hperm : shuffle (enumBlocks cfg) draws ~ enumBlocks cfg :=
    shuffleAux_perm draws (enumBlocks cfg) 0
  have htlen : (shuffle (enumBlocks cfg) draws).length =
      ceilDiv cfg.width cfg.blockSize * ceilDiv cfg.height cfg.blockSize := by
    rw [hperm.length_eq]
    exact enumBlocks_len cfg
  unfold startRM
  by_cases hlt : s.numDoneJobs < s.numTotalJobs
  · simp only [if_pos hlt]
    refine enqueueAll_WF _ ?_
    have hfreshlook : ∀ i < s.renderers.length,
        inprogOf (s.slots ++ mkSlots s.renderers.length s.nextSlot) (s.nextSlot + i) =
          none := by
      intro i _
      rw [inprogOf_append_none mkSlots_inprog_none]
      refine inprogOf_not_mem fun hmem => ?_
      have := hWF.slotFresh _ hmem
      omega
    have holdlook : ∀ id ∈ s.slots.map Slot.id,
        inprogOf (s.slots ++ mkSlots s.renderers.length s.nextSlot) id =
          inprogOf s.slots id := fun id _ =>
      inprogOf_append_none mkSlots_inprog_none id
    refine
      { count := ?_
      , poolNodup := ?_
      , slotIdsNodup := ?_
      , poolInSlots := ?_
      , slotFresh := ?_
      , termFresh := ?_
      , live := ?_
      , liveSep := ?_
      , cbFresh := hWF.cbFresh
      , cbNodup := hWF.cbNodup
      , tgtNone := ?_ }
    · -- count: all fresh instances are idle, the queue is the full grid
      show 0 + ((List.range s.renderers.length).map fun i => s.nextSlot + i).countP
        (fun id => (inprogOf (s.slots ++ mkSlots s.renderers.length s.nextSlot) id).isSome) +
        (shuffle (enumBlocks cfg) draws).length =
        ceilDiv cfg.width cfg.blockSize * ceilDiv cfg.height cfg.blockSize
      have hzero : ((List.range s.renderers.length).map fun i => s.nextSlot + i).countP
          (fun id => (inprogOf (s.slots ++ mkSlots s.renderers.length s.nextSlot) id).isSome)
          = 0 := by
        refine List.countP_eq_zero.mpr fun a ha => ?_
        obtain ⟨i, hi, rfl⟩ := List.mem_map.mp ha
        rw [hfreshlook i (List.mem_range.mp hi)]
        simp
      rw [hzero, htlen]
      omega
    · show (((List.range s.renderers.length).map fun i => s.nextSlot + i)).Nodup
      exact (List.nodup_range _).map fun a b h => by omega
    · show ((s.slots ++ mkSlots s.renderers.length s.nextSlot).map Slot.id).Nodup
      rw [List.map_append, mkSlots_map_id]
      refine List.Nodup.append hWF.slotIdsNodup
        ((List.nodup_range _).map fun a b h => by omega) ?_
      intro a ha hb
      obtain ⟨i, _, rfl⟩ := List.mem_map.mp hb
      have := hWF.slotFresh _ ha
      omega
    · intro id hid
      obtain ⟨i, hi, rfl⟩ := List.mem_map.mp hid
      show _ ∈ (s.slots ++ mkSlots s.renderers.length s.nextSlot).map Slot.id
      rw [List.map_append, mkSlots_map_id]
      exact List.mem_append_right _ (List.mem_map.mpr ⟨i, hi, rfl⟩)
    · intro id hid
      show id < s.nextSlot + s.renderers.length
      rw [show (s.slots ++ mkSlots s.renderers.length s.nextSlot).map Slot.id =
        s.slots.map Slot.id ++ (List.range s.renderers.length).map (fun i => s.nextSlot + i)
        from by rw [List.map_append, mkSlots_map_id]] at hid
      rcases List.mem_append.mp hid with h | h
      · have := hWF.slotFresh _ h
        omega
      · obtain ⟨i, hi, rfl⟩ := List.mem_map.mp h
        have := List.mem_range.mp hi
        omega
    · intro id hid
      show id < s.nextSlot + s.renderers.length
      rcases List.mem_append.mp hid with h | h
      · have := hWF.termFresh _ h
        omega
      · have := hWF.slotFresh _ (hWF.poolInSlots _ h)
        omega
    · -- no live continuation survives: every old instance is terminated
      intro c hc halive
      exfalso
      have hnotold : c.slot ∉ s.terminated := fun h =>
        halive (List.mem_append_left _ h)
      have := (hWF.live c hc hnotold).1
      exact halive (List.mem_append_right _ this)
    · intro c hc c' hc' halive hne
      exfalso
      have hnotold : c.slot ∉ s.terminated := fun h =>
        halive (List.mem_append_left _ h)
      have := (hWF.live c hc hnotold).1
      exact halive (List.mem_append_right _ this)
    · intro htn
      exact absurd htn (by simp)
  · simp only [if_neg hlt]
    refine enqueueAll_WF _ ?_
    have hin0 : inFlight s = 0 := by
      have := hWF.count
      omega
    refine
      { count := ?_
      , poolNodup := hWF.poolNodup
      , slotIdsNodup := by
          show ((clearInprogs s.slots s.renderers).map Slot.id).Nodup
          rw [clearInprogs_map_id]
          exact hWF.slotIdsNodup
      , poolInSlots := by
          intro i hi
          show i ∈ (clearInprogs s.slots s.renderers).map Slot.id
          rw [clearInprogs_map_id]
          exact hWF.poolInSlots i hi
      , slotFresh := by
          intro i hi
          rw [show (clearInprogs s.slots s.renderers).map Slot.id = s.slots.map Slot.id
            from clearInprogs_map_id _ _] at hi
          exact hWF.slotFresh i hi
      , termFresh := hWF.termFresh
      , live := ?_
      , liveSep := ?_
      , cbFresh := hWF.cbFresh
      , cbNodup := hWF.cbNodup
      , tgtNone := ?_ }
    · -- count: all kept instances were cleared, the queue is the full grid
      show 0 + s.renderers.countP
        (fun id => (inprogOf (clearInprogs s.slots s.renderers) id).isSome) +
        (shuffle (enumBlocks cfg) draws).length =
        ceilDiv cfg.width cfg.blockSize * ceilDiv cfg.height cfg.blockSize
      have hzero : s.renderers.countP
          (fun id => (inprogOf (clearInprogs s.slots s.renderers) id).isSome) = 0 := by
        refine List.countP_eq_zero.mpr fun a ha => ?_
        rw [inprogOf_clear_mem ha]
        simp
      rw [hzero, htlen]
      omega
    · -- no live continuation exists when the previous frame completed
      intro c hc halive
      exfalso
      obtain ⟨hr, hl, _⟩ := hWF.live c hc halive
      have hpos : 0 < inFlight s := by
        refine List.countP_pos_iff.mpr ⟨c.slot, hr, ?_⟩
        have hl' : inprogOf s.slots c.slot = some c.job := hl
        rw [hl']
        simp
      omega
    · intro c hc c' hc' halive hne
      exfalso
      obtain ⟨hr, hl, _⟩ := hWF.live c hc halive
      have hpos : 0 < inFlight s := by
        refine List.countP_pos_iff.mpr ⟨c.slot, hr, ?_⟩
        have hl' : inprogOf s.slots c.slot = some c.job := hl
        rw [hl']
        simp
      omega
    · intro htn
      exact absurd htn (by simp)

/-! ### Preservation of the scheduler invariant: `setNumCores` -/

theorem setNumCores_WF (c : Nat) (s : RenderManager) (hWF : WF s) :
    WF (setNumCores c s).1 := by
  unfold setNumCores
  by_cases h1 : c < s.renderers.length
  · rw [if_pos h1]
    show WF (reclaimLoop c s.renderers s)
    rw [reclaimLoop_spec c s.renderers s rfl]
    have hsplit : s.renderers.take (s.renderers.length - c) ++
        s.renderers.drop (s.renderers.length - c) = s.renderers :=
      List.take_append_drop _ s.renderers
    have hsplitNodup : (s.renderers.take (s.renderers.length - c) ++
        s.renderers.drop (s.renderers.length - c)).Nodup := by
      rw [hsplit]
      exact hWF.poolNodup
    obtain ⟨hndTake, hndDrop, hdisj⟩ := List.nodup_append.mp hsplitNodup
    refine
      { count := ?_
      , poolNodup := hndDrop
      , slotIdsNodup := hWF.slotIdsNodup
      , poolInSlots := fun id hid =>
          hWF.poolInSlots id ((List.drop_sublist _ _).subset hid)
      , slotFresh := hWF.slotFresh
      , termFresh := ?_
      , live := ?_
      , liveSep := ?_
      , cbFresh := hWF.cbFresh
      , cbNodup := hWF.cbNodup
      , tgtNone := ?_ }
    · -- count: reclaimed blocks move from in-flight to pending
      show s.numDoneJobs +
        (s.renderers.drop (s.renderers.length - c)).countP
          (fun id => (inprogOf s.slots id).isSome) +
        (s.todos ++ (s.renderers.take (s.renderers.length - c)).filterMap
          (fun id => lookupInprog s id)).length = s.numTotalJobs
      have hc := hWF.count
      unfold inFlight at hc
      rw [← hsplit, List.countP_append] at hc
      rw [List.length_append, length_filterMap_countP]
      have hcong : (s.renderers.take (s.renderers.length - c)).countP
          (fun a => (lookupInprog s a).isSome) =
          (s.renderers.take (s.renderers.length - c)).countP
          (fun a => (inprogOf s.slots a).isSome) :=
        List.countP_congr fun a _ => Iff.rfl
      rw [hcong]
      omega
    · -- popped instances are registered, hence fresh-bounded
      intro id hid
      show id < s.nextSlot
      rcases List.mem_append.mp hid with h | h
      · exact hWF.termFresh id h
      · exact hWF.slotFresh id
          (hWF.poolInSlots id ((List.take_sublist _ _).subset h))
    · -- surviving live continuations sit in the surviving pool suffix
      intro c' hc' halive
      have hnotold : c'.slot ∉ s.terminated := fun h =>
        halive (List.mem_append_left _ h)
      obtain ⟨hr, hl, ht⟩ := hWF.live c' hc' hnotold
      refine ⟨?_, hl, ht⟩
      rw [← hsplit] at hr
      rcases List.mem_append.mp hr with h | h
      · exact absurd (List.mem_append_right _ h) halive
      · exact h
    · intro c1 h1' c2 h2' halive hne
      have hnotold : c1.slot ∉ s.terminated := fun h =>
        halive (List.mem_append_left _ h)
      exact hWF.liveSep c1 h1' c2 h2' hnotold hne
    · intro htn
      obtain ⟨hp, ht0, htot, hdone, hlooks⟩ := hWF.tgtNone htn
      refine ⟨hp, ?_, htot, hdone, ?_⟩
      · rw [ht0]
        show [] ++ _ = ([] : List Rect4)
        rw [List.nil_append]
        exact List.filterMap_eq_nil_iff.mpr fun a ha =>
          hlooks a ((List.take_sublist _ _).subset ha)
      · intro id hid
        exact hlooks id ((List.drop_sublist _ _).subset hid)
  · rw [if_neg h1]
    by_cases h2 : s.renderers.length < c
    · rw [if_pos h2]
      cases htgt : s.target with
      | none =>
        -- the grow loop pushed one instance and threw
        have hlookeq : ∀ id, inprogOf
            (s.slots ++ [{ id := s.nextSlot, inprogress := none }]) id =
            inprogOf s.slots id :=
          inprogOf_append_none (fun sl h => by
            rw [show sl = { id := s.nextSlot, inprogress := none } from by simpa using h])
        obtain ⟨hp, ht0, htot, hdone, hlooks⟩ := hWF.tgtNone htgt
        refine
          { count := ?_
          , poolNodup := ?_
          , slotIdsNodup := ?_
          , poolInSlots := ?_
          , slotFresh := ?_
          , termFresh := ?_
          , live := ?_
          , liveSep := ?_
          , cbFresh := hWF.cbFresh
          , cbNodup := hWF.cbNodup
          , tgtNone := ?_ }
        · show s.numDoneJobs + (s.renderers ++ [s.nextSlot]).countP
            (fun id => (inprogOf
              (s.slots ++ [{ id := s.nextSlot, inprogress := none }]) id).isSome) +
            s.todos.length = s.numTotalJobs
          have hcong : (s.renderers ++ [s.nextSlot]).countP
              (fun id => (inprogOf
                (s.slots ++ [{ id := s.nextSlot, inprogress := none }]) id).isSome) =
              (s.renderers ++ [s.nextSlot]).countP
              (fun id => (inprogOf s.slots id).isSome) :=
            List.countP_congr fun a _ => by rw [hlookeq a]
          rw [hcong, List.countP_append]
          have hns : ([s.nextSlot].countP fun id => (inprogOf s.slots id).isSome) = 0 := by
            have : inprogOf s.slots s.nextSlot = none := by
              refine inprogOf_not_mem fun hmem => ?_
              have := hWF.slotFresh _ hmem
              omega
            simp [List.countP_cons, this]
          have hc := hWF.count
          unfold inFlight at hc
          omega
        · refine List.nodup_append.mpr
            ⟨hWF.poolNodup, List.nodup_singleton _, fun a ha hb => ?_⟩
          have h3 := hWF.slotFresh _ (hWF.poolInSlots _ ha)
          have h4 : a = s.nextSlot := by simpa using hb
          omega
        · show ((s.slots ++
            [({ id := s.nextSlot, inprogress := none } : Slot)]).map Slot.id).Nodup
          rw [List.map_append]
          refine List.nodup_append.mpr ⟨hWF.slotIdsNodup, ?_, fun a ha hb => ?_⟩
          · exact List.nodup_singleton _
          · have h3 := hWF.slotFresh _ ha
            have h4 : a = s.nextSlot := by simpa using hb
            omega
        · intro id hid
          show id ∈ (s.slots ++
            [({ id := s.nextSlot, inprogress := none } : Slot)]).map Slot.id
          rw [List.map_append]
          rcases List.mem_append.mp hid with h | h
          · exact List.mem_append_left _ (hWF.poolInSlots id h)
          · refine List.mem_append_right _ ?_
            simpa using h
        · intro id hid
          show id < s.nextSlot + 1
          rw [List.map_append] at hid
          rcases List.mem_append.mp hid with h | h
          · have := hWF.slotFresh id h
            omega
          · have : id = s.nextSlot := by simpa using h
            omega
        · intro id hid
          show id < s.nextSlot + 1
          have := hWF.termFresh id hid
          omega
        · intro c' hc' _
          exfalso
          have hmem : c' ∈ s.pending := hc'
          rw [hp] at hmem
          exact List.not_mem_nil c' hmem
        · intro c' hc'
          exfalso
          have : c' ∈ s.pending := hc'
          rw [hp] at this
          exact List.not_mem_nil c' this
        · intro _
          refine ⟨hp, ht0, htot, hdone, ?_⟩
          intro id hid
          show inprogOf (s.slots ++ [{ id := s.nextSlot, inprogress := none }]) id = none
          rw [hlookeq id]
          rcases List.mem_append.mp hid with h | h
          · exact hlooks id h
          · have : id = s.nextSlot := by simpa using h
            subst this
            refine inprogOf_not_mem fun hmem => ?_
            have := hWF.slotFresh _ hmem
            omega
      | some t =>
        refine enqueueAll_WF _ ?_
        have hlookeq : ∀ id, inprogOf
            (s.slots ++ mkSlots (c - s.renderers.length) s.nextSlot) id =
            inprogOf s.slots id :=
          inprogOf_append_none mkSlots_inprog_none
        refine
          { count := ?_
          , poolNodup := ?_
          , slotIdsNodup := ?_
          , poolInSlots := ?_
          , slotFresh := ?_
          , termFresh := ?_
          , live := ?_
          , liveSep := ?_
          , cbFresh := hWF.cbFresh
          , cbNodup := hWF.cbNodup
          , tgtNone := ?_ }
        · show s.numDoneJobs + (s.renderers ++
            (List.range (c - s.renderers.length)).map fun i => s.nextSlot + i).countP
            (fun id => (inprogOf
              (s.slots ++ mkSlots (c - s.renderers.length) s.nextSlot) id).isSome) +
            s.todos.length = s.numTotalJobs
          have hcong : (s.renderers ++
              (List.range (c - s.renderers.length)).map fun i => s.nextSlot + i).countP
              (fun id => (inprogOf
                (s.slots ++ mkSlots (c - s.renderers.length) s.nextSlot) id).isSome) =
              (s.renderers ++
              (List.range (c - s.renderers.length)).map fun i => s.nextSlot + i).countP
              (fun id => (inprogOf s.slots id).isSome) :=
            List.countP_congr fun a _ => by rw [hlookeq a]
          rw [hcong, List.countP_append]
          have hfresh0 : (((List.range (c - s.renderers.length)).map
              fun i => s.nextSlot + i).countP
              fun id => (inprogOf s.slots id).isSome) = 0 := by
            refine List.countP_eq_zero.mpr fun a ha => ?_
            obtain ⟨i, _, rfl⟩ := List.mem_map.mp ha
            have hnone : inprogOf s.slots (s.nextSlot + i) = none := by
              refine inprogOf_not_mem fun hmem => ?_
              have := hWF.slotFresh _ hmem
              omega
            rw [hnone]
            simp
          have hc := hWF.count
          unfold inFlight at hc
          omega
        · refine List.nodup_append.mpr
            ⟨hWF.poolNodup, (List.nodup_range _).map fun a b h => by omega,
              fun a ha hb => ?_⟩
          obtain ⟨i, _, rfl⟩ := List.mem_map.mp hb
          have := hWF.slotFresh _ (hWF.poolInSlots _ ha)
          omega
        · show ((s.slots ++ mkSlots (c - s.renderers.length) s.nextSlot).map Slot.id).Nodup
          rw [List.map_append, mkSlots_map_id]
          refine List.nodup_append.mpr
            ⟨hWF.slotIdsNodup, (List.nodup_range _).map fun a b h => by omega,
              fun a ha hb => ?_⟩
          obtain ⟨i, _, rfl⟩ := List.mem_map.mp hb
          have := hWF.slotFresh _ ha
          omega
        · intro id hid
          show id ∈ (s.slots ++ mkSlots (c - s.renderers.length) s.nextSlot).map Slot.id
          rw [List.map_append, mkSlots_map_id]
          rcases List.mem_append.mp hid with h | h
          · exact List.mem_append_left _ (hWF.poolInSlots id h)
          · exact List.mem_append_right _ h
        · intro id hid
          show id < s.nextSlot + (c - s.renderers.length)
          rw [List.map_append, mkSlots_map_id] at hid
          rcases List.mem_append.mp hid with h | h
          · have := hWF.slotFresh id h
            omega
          · obtain ⟨i, hi, rfl⟩ := List.mem_map.mp h
            have := List.mem_range.mp hi
            omega
        · intro id hid
          show id < s.nextSlot + (c - s.renderers.length)
          have := hWF.termFresh id hid
          omega
        · intro c' hc' halive
          obtain ⟨hr, hl, ht⟩ := hWF.live c' hc' halive
          refine ⟨List.mem_append_left _ hr, ?_, ?_⟩
          · show inprogOf (s.slots ++ mkSlots (c - s.renderers.length) s.nextSlot)
              c'.slot = some c'.job
            rw [hlookeq c'.slot]
            exact hl
          · show c'.tgt = some t
            rw [htgt] at ht
            exact ht
        · intro c1 hc1 c2 hc2 halive hne
          exact hWF.liveSep c1 hc1 c2 hc2 halive hne
        · intro htn
          exact Option.noConfusion htn
    · rw [if_neg h2]
      exact hWF

/-! ### Preservation of the scheduler invariant: settlement of a live
continuation (the reclaimed case is settled separately, by computation,
under C1 and C2) -/

theorem settleRender_live_WF (cb : Callback) (s : RenderManager)
    (hcb : cb ∈ s.pending) (hterm : cb.slot ∉ s.terminated)
    (hWF : WF s) : WF (settleRender cb s) := by
  unfold settleRender
  · obtain ⟨hr, hl, ht⟩ := hWF.live cb hcb hterm
    have hl' : inprogOf s.slots cb.slot = some cb.job := hl
    have hpendNodup : s.pending.Nodup := hWF.cbNodup.of_map
    unfold onResult
    have hbeq : (lookupInprog { s with pending := s.pending.erase cb } cb.slot ==
        some cb.job) = true := by
      show (inprogOf s.slots cb.slot == some cb.job) = true
      simp [hl']
    rw [if_pos hbeq]
    refine enqueueAll_WF _ ?_
    refine
      { count := ?_
      , poolNodup := hWF.poolNodup
      , slotIdsNodup := by
          show ((setInprog s.slots cb.slot none).map Slot.id).Nodup
          rw [setInprog_map_id]
          exact hWF.slotIdsNodup
      , poolInSlots := by
          intro i hi
          show i ∈ (setInprog s.slots cb.slot none).map Slot.id
          rw [setInprog_map_id]
          exact hWF.poolInSlots i hi
      , slotFresh := by
          intro i hi
          rw [show (setInprog s.slots cb.slot none).map Slot.id = s.slots.map Slot.id
            from setInprog_map_id _ _ _] at hi
          exact hWF.slotFresh i hi
      , termFresh := hWF.termFresh
      , live := ?_
      , liveSep := ?_
      , cbFresh := ?_
      , cbNodup := ?_
      , tgtNone := ?_ }
    · -- count: one block moves from in-flight to done
      show s.numDoneJobs + 1 + s.renderers.countP
        (fun i => (inprogOf (setInprog s.slots cb.slot none) i).isSome) +
        s.todos.length = s.numTotalJobs
      have hkey := countP_update (l := s.renderers)
        (p := fun i => (inprogOf s.slots i).isSome)
        (q := fun i => (inprogOf (setInprog s.slots cb.slot none) i).isSome)
        hWF.poolNodup hr
        (fun b _ hbne => by
          show (inprogOf (setInprog s.slots cb.slot none) b).isSome =
            (inprogOf s.slots b).isSome
          rw [inprogOf_set_other _ hbne])
      have hp : (inprogOf s.slots cb.slot).isSome = true := by
        rw [hl']
        rfl
      have hp' : (inprogOf (setInprog s.slots cb.slot none) cb.slot).isSome = false := by
        rw [inprogOf_set_self _ (hWF.poolInSlots cb.slot hr)]
        rfl
      simp [hp, hp'] at hkey
      have hc := hWF.count
      unfold inFlight at hc
      omega
    · -- other live continuations keep their matching in-flight markers
      intro c' hc' halive
      have hmem := (hpendNodup.mem_erase_iff).mp hc'
      obtain ⟨hr', hl2, ht2⟩ := hWF.live c' hmem.2 halive
      refine ⟨hr', ?_, ht2⟩
      have hslotne : c'.slot ≠ cb.slot := hWF.liveSep c' hmem.2 cb hcb halive hmem.1
      show inprogOf (setInprog s.slots cb.slot none) c'.slot = some c'.job
      rw [inprogOf_set_other _ hslotne]
      exact hl2
    · intro c1 hc1 c2 hc2 halive hne
      exact hWF.liveSep c1 ((hpendNodup.mem_erase_iff).mp hc1).2 c2
        ((hpendNodup.mem_erase_iff).mp hc2).2 halive hne
    · intro c' hc'
      exact hWF.cbFresh c' (List.mem_of_mem_erase hc')
    · show ((s.pending.erase cb).map Callback.cb).Nodup
      exact hWF.cbNodup.sublist ((List.erase_sublist cb s.pending).map Callback.cb)
    · intro htn
      exfalso
      have hnil := (hWF.tgtNone htn).1
      rw [hnil] at hcb
      exact List.not_mem_nil cb hcb

/-! ### The invariant at construction -/

theorem initRM_WF (n : Nat) : WF (initRM n) := by
  have hlooks : ∀ id, inprogOf (mkSlots n 0) id = none :=
    inprogOf_all_none mkSlots_inprog_none
  refine
    { count := ?_
    , poolNodup := List.nodup_range n
    , slotIdsNodup := ?_
    , poolInSlots := ?_
    , slotFresh := ?_
    , termFresh := fun id h => absurd h (List.not_mem_nil id)
    , live := fun c hc => absurd hc (List.not_mem_nil c)
    , liveSep := fun c hc => absurd hc (List.not_mem_nil c)
    , cbFresh := fun c hc => absurd hc (List.not_mem_nil c)
    , cbNodup := List.nodup_nil
    , tgtNone := ?_ }
  · show 0 + (List.range n).countP (fun id => (inprogOf (mkSlots n 0) id).isSome) +
      0 = 0
    have hzero : (List.range n).countP
        (fun id => (inprogOf (mkSlots n 0) id).isSome) = 0 := by
      refine List.countP_eq_zero.mpr fun a _ => ?_
      rw [hlooks a]
      simp
    omega
  · show ((mkSlots n 0).map Slot.id).Nodup
    rw [mkSlots_map_id]
    exact (List.nodup_range n).map fun a b h => by omega
  · intro id hid
    show id ∈ (mkSlots n 0).map Slot.id
    rw [mkSlots_map_id]
    exact List.mem_map.mpr ⟨id, hid, by omega⟩
  · intro id hid
    show id < n
    have hid' : id ∈ (mkSlots n 0).map Slot.id := hid
    rw [mkSlots_map_id] at hid'
    obtain ⟨i, hi, rfl⟩ := List.mem_map.mp hid'
    have := List.mem_range.mp hi
    omega
  · intro _
    exact ⟨rfl, rfl, rfl, rfl, fun id _ => hlooks id⟩

/-! ### C1 and C2: the reclaimed-slot late result

The scenario: a two-worker pool, `start` on a `4×4` frame with block size
`4` (a single block, dispatched to the head worker, slot `0`), then
`setNumCores(1)` — the shrink loop `shift()`s slot `0`, pushes its
in-flight block back onto `_todos`, emits `unqueued` and terminates the
worker, but does not clear its `inprogress`.  The outstanding render
promise of slot `0` then settles. -/

/-- C2 — the code violates the claim.  The accounting equation
`done_count + in_flight + pending = total_count` is not preserved by every
result arrival: in the reachable state after the reclaim the equation
holds (`0 + 0 + 1 = 1`), but settling the reclaimed slot's promise passes
the `r.inprogress === job` check (reclaim never cleared `r.inprogress`),
so `_numDoneJobs` becomes `1` while `_enqueueAll` re-dispatches the very
same block to the surviving worker, leaving
`done + in_flight + pending = total + 1` — the block is counted done and
in flight at once, and will complete a second time. -/
theorem scheduler_accounting_violated :
    Reachable 2 (setNumCores 1 (startRM ⟨4, 4, 4, 1, false⟩ [0] (initRM 2))).1 ∧
    countInvariant (setNumCores 1 (startRM ⟨4, 4, 4, 1, false⟩ [0] (initRM 2))).1 ∧
    RStep (setNumCores 1 (startRM ⟨4, 4, 4, 1, false⟩ [0] (initRM 2))).1
      (settleRender ({ cb := 0, slot := 0, job := ⟨0, 0, 4, 4⟩, tgt := some 0 } : Callback)
        (setNumCores 1 (startRM ⟨4, 4, 4, 1, false⟩ [0] (initRM 2))).1) ∧
    ¬ countInvariant
      (settleRender ({ cb := 0, slot := 0, job := ⟨0, 0, 4, 4⟩, tgt := some 0 } : Callback)
        (setNumCores 1 (startRM ⟨4, 4, 4, 1, false⟩ [0] (initRM 2))).1) ∧
    (settleRender ({ cb := 0, slot := 0, job := ⟨0, 0, 4, 4⟩, tgt := some 0 } : Callback)
        (setNumCores 1 (startRM ⟨4, 4, 4, 1, false⟩ [0] (initRM 2))).1).numDoneJobs +
      inFlight (settleRender ({ cb := 0, slot := 0, job := ⟨0, 0, 4, 4⟩, tgt := some 0 } : Callback)
        (setNumCores 1 (startRM ⟨4, 4, 4, 1, false⟩ [0] (initRM 2))).1) +
      (settleRender ({ cb := 0, slot := 0, job := ⟨0, 0, 4, 4⟩, tgt := some 0 } : Callback)
        (setNumCores 1 (startRM ⟨4, 4, 4, 1, false⟩ [0] (initRM 2))).1).todos.length =
      (settleRender ({ cb := 0, slot := 0, job := ⟨0, 0, 4, 4⟩, tgt := some 0 } : Callback)
        (setNumCores 1 (startRM ⟨4, 4, 4, 1, false⟩ [0] (initRM 2))).1).numTotalJobs + 1 := by
  refine ⟨?_, by decide, ?_, by decide, by decide⟩
  · exact Reachable.step (Reachable.step Reachable.init
      (RStep.start ⟨4, 4, 4, 1, false⟩ [0] (initRM 2) (by decide) (by decide)
        (by decide)))
      (RStep.setCores 1 _)
  · exact RStep.settle _ _ (by decide)

/-- C1 — the code violates the claim.  A pixel slab delivered for a block
whose worker slot has since been reclaimed is not silently discarded: the
reclaimed slot's continuation is still pending, the slot is terminated and
its block is already back in `_todos`, yet its settlement still passes the
`r.inprogress === job` identity check (the shrink path of `setNumCores`
never clears `r.inprogress`), so the slab is composited into the captured
frame buffer, `_numDoneJobs` is incremented, and `progress` and `done` are
emitted — the opposite of "not composited, done_count not incremented, no
progress or done event". -/
theorem stale_result_processed :
    ({ cb := 0, slot := 0, job := ⟨0, 0, 4, 4⟩, tgt := some 0 } : Callback) ∈
      (setNumCores 1 (startRM ⟨4, 4, 4, 1, false⟩ [0] (initRM 2))).1.pending ∧
    (0 : Nat) ∈ (setNumCores 1 (startRM ⟨4, 4, 4, 1, false⟩ [0] (initRM 2))).1.terminated ∧
    (⟨0, 0, 4, 4⟩ : Rect4) ∈ (setNumCores 1 (startRM ⟨4, 4, 4, 1, false⟩ [0] (initRM 2))).1.todos ∧
    (settleRender ({ cb := 0, slot := 0, job := ⟨0, 0, 4, 4⟩, tgt := some 0 } : Callback)
        (setNumCores 1 (startRM ⟨4, 4, 4, 1, false⟩ [0] (initRM 2))).1).numDoneJobs =
      (setNumCores 1 (startRM ⟨4, 4, 4, 1, false⟩ [0] (initRM 2))).1.numDoneJobs + 1 ∧
    (settleRender ({ cb := 0, slot := 0, job := ⟨0, 0, 4, 4⟩, tgt := some 0 } : Callback)
        (setNumCores 1 (startRM ⟨4, 4, 4, 1, false⟩ [0] (initRM 2))).1).writes =
      (setNumCores 1 (startRM ⟨4, 4, 4, 1, false⟩ [0] (initRM 2))).1.writes ++
        [(some 0, (⟨0, 0, 4, 4⟩ : Rect4))] ∧
    REvent.progress ⟨0, 0, 4, 4⟩ 1 1 ∈
      (settleRender ({ cb := 0, slot := 0, job := ⟨0, 0, 4, 4⟩, tgt := some 0 } : Callback)
        (setNumCores 1 (startRM ⟨4, 4, 4, 1, false⟩ [0] (initRM 2))).1).events ∧
    REvent.done ∈
      (settleRender ({ cb := 0, slot := 0, job := ⟨0, 0, 4, 4⟩, tgt := some 0 } : Callback)
        (setNumCores 1 (startRM ⟨4, 4, 4, 1, false⟩ [0] (initRM 2))).1).events := by
  decide

/-! ### The composite rule of `RaytraceTarget.addRect` (C9) -/

/-- C9: with de-banding disabled, `addRect(x, y, w, h, src)` writes, for
every `(i, j)` with `i < w`, `j < h`, exactly the bytes
`src[(j·w+i)·3 + {0,1,2}]` into byte indices `((y+j)·W + (x+i))·4 + {0,1,2}`
of the frame buffer of width `W`, writes `255` into the alpha channel
(byte index `+ 3`), touches no pixel outside the rectangle, and is
idempotent: compositing the same block from the same source twice yields a
frame buffer identical to compositing it once. -/
theorem addRect_composite (cv : Canvas) (x y w h W : Nat) (src : Nat → Nat)
    (hxw : x + w ≤ W) :
    (∀ i j c, i < w → j < h → c < 4 →
      byteAt W (addRect cv x y w h src) (((y + j) * W + (x + i)) * 4 + c) =
        if c = 3 then 255 else src ((j * w + i) * 3 + c))
    ∧ (∀ px py, ¬ (x ≤ px ∧ px < x + w ∧ y ≤ py ∧ py < y + h) →
        addRect cv x y w h src px py = cv px py)
    ∧ addRect (addRect cv x y w h src) x y w h src = addRect cv x y w h src := by
  refine ⟨?_, ?_, ?_⟩
  · intro i j c hi hj hc
    have hW : 0 < W := by omega
    have hxiW : x + i < W := by omega
    have hcol : ((y + j) * W + (x + i)) % W = x + i := by
      rw [Nat.mul_comm (y + j) W, Nat.mul_add_mod, Nat.mod_eq_of_lt hxiW]
    have hrow : ((y + j) * W + (x + i)) / W = y + j := by
      rw [Nat.mul_comm (y + j) W, Nat.mul_add_div hW, Nat.div_eq_of_lt hxiW,
        Nat.add_zero]
    have hpix : addRect cv x y w h src (x + i) (y + j) =
        { r := src ((j * w + i) * 3 + 0), g := src ((j * w + i) * 3 + 1)
        , b := src ((j * w + i) * 3 + 2), a := 255 } := by
      simp [addRect, putImageData, patchPixels, getImageData, hi, hj]
    interval_cases c
    · have hdivq : (((y + j) * W + (x + i)) * 4 + 0) / 4 = (y + j) * W + (x + i) := by
        omega
      have hmodq : (((y + j) * W + (x + i)) * 4 + 0) % 4 = 0 := by omega
      simp [byteAt, hdivq, hmodq, hcol, hrow, hpix]
    · have hdivq : (((y + j) * W + (x + i)) * 4 + 1) / 4 = (y + j) * W + (x + i) := by
        omega
      have hmodq : (((y + j) * W + (x + i)) * 4 + 1) % 4 = 1 := by omega
      simp [byteAt, hdivq, hmodq, hcol, hrow, hpix]
    · have hdivq : (((y + j) * W + (x + i)) * 4 + 2) / 4 = (y + j) * W + (x + i) := by
        omega
      have hmodq : (((y + j) * W + (x + i)) * 4 + 2) % 4 = 2 := by omega
      simp [byteAt, hdivq, hmodq, hcol, hrow, hpix]
    · have hdivq : (((y + j) * W + (x + i)) * 4 + 3) / 4 = (y + j) * W + (x + i) := by
        omega
      have hmodq : (((y + j) * W + (x + i)) * 4 + 3) % 4 = 3 := by omega
      simp [byteAt, hdivq, hmodq, hcol, hrow, hpix]
  · intro px py hout
    simp only [addRect, putImageData]
    rw [if_neg hout]
  · funext px py
    by_cases hin : x ≤ px ∧ px < x + w ∧ y ≤ py ∧ py < y + h
    · obtain ⟨ha, hb, hc', hd⟩ := hin
      have hi : px - x < w := by omega
      have hj : py - y < h := by omega
      simp [addRect, putImageData, patchPixels, getImageData, ha, hb, hc', hd, hi, hj]
    · simp only [addRect, putImageData]
      rw [if_neg hin, if_neg hin]

/-- Witness for C9 at a concrete composite: the green byte of the single
pixel of a `1×1` block written at `(1, 0)` of a width-2 buffer. -/
theorem addRect_composite_witness :
    byteAt 2 (addRect (fun _ _ => ⟨0, 0, 0, 0⟩) 1 0 1 1 (fun k => k))
      (((0 + 0) * 2 + (1 + 0)) * 4 + 1) = 1 :=
  ((addRect_composite (fun _ _ => ⟨0, 0, 0, 0⟩) 1 0 1 1 2 (fun k => k)
    (by decide)).1 0 0 1 (by decide) (by decide) (by decide)).trans (by decide)

/-! ### Order lemmas for duplicate-free traces -/

theorem pair_sublist_mem {H : List α} {e1 e2 : α} (h : [e1, e2].Sublist H) :
    e1 ∈ H ∧ e2 ∈ H :=
  ⟨h.subset (by simp), h.subset (by simp)⟩

theorem pair_sublist_self {H : List α} (hnd : H.Nodup) {e : α}
    (h : [e, e].Sublist H) : False := by
  induction H with
  | nil => cases h
  | cons x t ih =>
    rcases List.nodup_cons.mp hnd with ⟨hx, ht⟩
    cases h with
    | cons _ h' => exact ih ht h'
    | cons₂ =>
      rename_i h'
      exact hx (List.singleton_sublist.mp h')

theorem pair_sublist_asymm {H : List α} (hnd : H.Nodup) {a b : α}
    (h1 : [a, b].Sublist H) (h2 : [b, a].Sublist H) : False := by
  induction H with
  | nil => cases h1
  | cons x t ih =>
    rcases List.nodup_cons.mp hnd with ⟨hx, ht⟩
    cases h1 with
    | cons _ h1' =>
      cases h2 with
      | cons _ h2' => exact ih ht h1' h2'
      | cons₂ =>
        rename_i h2'
        exact hx (pair_sublist_mem h1').2
    | cons₂ =>
      rename_i h1'
      cases h2 with
      | cons _ h2' => exact hx (pair_sublist_mem h2').2
      | cons₂ =>
        rename_i h2'
        exact hx (List.singleton_sublist.mp h1')

theorem pair_sublist_trans {H : List α} (hnd : H.Nodup) {a b c : α}
    (h1 : [a, b].Sublist H) (h2 : [b, c].Sublist H) : [a, c].Sublist H := by
  induction H with
  | nil => cases h1
  | cons x t ih =>
    rcases List.nodup_cons.mp hnd with ⟨hx, ht⟩
    cases h1 with
    | cons _ h1' =>
      cases h2 with
      | cons _ h2' => exact (ih ht h1' h2').cons x
      | cons₂ =>
        rename_i h2'
        exact absurd (pair_sublist_mem h1').2 hx
    | cons₂ =>
      rename_i h1'
      cases h2 with
      | cons _ h2' =>
        exact List.Sublist.cons₂ _ (List.singleton_sublist.mpr (pair_sublist_mem h2').2)
      | cons₂ =>
        rename_i h2'
        exact absurd (List.singleton_sublist.mp h1') hx

theorem pair_sublist_append_elim {H K : List α} (hnd : (H ++ K).Nodup)
    {e1 e2 : α} (h : [e1, e2].Sublist (H ++ K)) (h1 : e1 ∈ H) (h2 : e2 ∈ H) :
    [e1, e2].Sublist H := by
  induction H with
  | nil => cases h1
  | cons x t ih =>
    simp only [List.cons_append] at h hnd
    rcases List.nodup_cons.mp hnd with ⟨hx, ht⟩
    cases h with
    | cons _ h' =>
      have he1 : e1 ∈ t := by
        rcases List.mem_cons.mp h1 with rfl | h1t
        · exact ((hx (pair_sublist_mem h').1)).elim
        · exact h1t
      have he2 : e2 ∈ t := by
        rcases List.mem_cons.mp h2 with rfl | h2t
        · exact ((hx (pair_sublist_mem h').2)).elim
        · exact h2t
      exact (ih ht h' he1 he2).cons x
    | cons₂ =>
      rename_i h'
      have he2 : e2 ∈ t := by
        rcases List.mem_cons.mp h2 with rfl | h2t
        · exact ((hx (List.singleton_sublist.mp h'))).elim
        · exact h2t
      exact List.Sublist.cons₂ _ (List.singleton_sublist.mpr he2)

theorem pair_sublist_last {E : List α} {a b : α} (hnd : (E ++ [a]).Nodup)
    (h : [a, b].Sublist (E ++ [a])) : False := by
  induction E with
  | nil =>
    cases h with
    | cons _ h' => cases h'
    | cons₂ =>
      rename_i h'
      cases h'
  | cons x t ih =>
    simp only [List.cons_append] at h hnd
    rcases List.nodup_cons.mp hnd with ⟨hx, ht⟩
    cases h with
    | cons _ h' => exact ih ht h'
    | cons₂ =>
      rename_i h'
      exact hx (List.mem_append_right t (by simp))

theorem eventsBefore_mono {E K : List JQEvent} {e1 e2 : JQEvent}
    (h : eventsBefore E e1 e2) : eventsBefore (E ++ K) e1 e2 :=
  h.trans (List.sublist_append_left E K)

theorem eventsBefore_mk {E K : List JQEvent} {e1 e2 : JQEvent}
    (h1 : e1 ∈ E) (h2 : e2 ∈ K) : eventsBefore (E ++ K) e1 e2 :=
  List.Sublist.append (List.singleton_sublist.mpr h1) (List.singleton_sublist.mpr h2)

theorem submittedBefore_mono {E K : List JQEvent} {j1 j2 : Nat}
    (h : submittedBefore E j1 j2) : submittedBefore (E ++ K) j1 j2 :=
  eventsBefore_mono h

theorem submittedBefore_elim {E K : List JQEvent} (hnd : (E ++ K).Nodup)
    (hK : ∀ j : Nat, JQEvent.submitted j ∉ K) {j1 j2 : Nat}
    (h : submittedBefore (E ++ K) j1 j2) : submittedBefore E j1 j2 := by
  have h1 : JQEvent.submitted j1 ∈ E := by
    rcases List.mem_append.mp (pair_sublist_mem h).1 with h' | h'
    · exact h'
    · exact absurd h' (hK j1)
  have h2 : JQEvent.submitted j2 ∈ E := by
    rcases List.mem_append.mp (pair_sublist_mem h).2 with h' | h'
    · exact h'
    · exact absurd h' (hK j2)
  exact pair_sublist_append_elim hnd h h1 h2

/-! ### Characterizations of the serializer transitions -/

theorem settleOk_none {s : JobQueue} (h : s.current = none) : s.settleOk = s := by
  unfold JobQueue.settleOk
  rw [h]

theorem settleErr_none {s : JobQueue} (h : s.current = none) : s.settleErr = s := by
  unfold JobQueue.settleErr
  rw [h]

theorem settleErr_spec {s : JobQueue} {j : Nat} (h : s.current = some j) :
    s.settleErr =
      { queue := s.queue, isRunning := s.isRunning, current := none
      , currentDirect := s.currentDirect, errored := true
      , events := s.events ++ [JQEvent.futureSettled j] } := by
  unfold JobQueue.settleErr
  rw [h]

theorem settleOk_spec {s : JobQueue} {j : Nat} (hcur : s.current = some j) :
    s.settleOk =
      match s.queue with
      | q :: rest =>
        { queue := rest, isRunning := s.isRunning, current := some q
        , currentDirect := false, errored := s.errored
        , events := s.events ++
            (if s.currentDirect then
              [JQEvent.futureSettled j, JQEvent.startJob q, JQEvent.ticketFulfil j]
            else
              [JQEvent.futureSettled j, JQEvent.ticketFulfil j, JQEvent.startJob q]) }
      | [] =>
        { queue := [], isRunning := false, current := none
        , currentDirect := s.currentDirect, errored := s.errored
        , events := s.events ++ [JQEvent.futureSettled j, JQEvent.ticketFulfil j] } := by
  cases hdir : s.currentDirect with
  | true =>
    cases hq : s.queue with
    | nil => simp [JobQueue.settleOk, JobQueue.next, hcur, hq, hdir, List.append_assoc]
    | cons q rest =>
      simp [JobQueue.settleOk, JobQueue.next, hcur, hq, hdir, List.append_assoc]
  | false =>
    cases hq : s.queue with
    | nil => simp [JobQueue.settleOk, JobQueue.next, hcur, hq, hdir, List.append_assoc]
    | cons q rest =>
      simp [JobQueue.settleOk, JobQueue.next, hcur, hq, hdir, List.append_assoc]

theorem add_running {s : JobQueue} {j : Nat} (h : s.isRunning = true) :
    s.add j =
      { queue := s.queue ++ [j], isRunning := true, current := s.current
      , currentDirect := s.currentDirect, errored := s.errored
      , events := s.events ++ [JQEvent.submitted j] } := by
  unfold JobQueue.add
  rw [if_pos h, h]

theorem add_idle {s : JobQueue} {j : Nat} (h : s.isRunning = false) :
    s.add j =
      { queue := s.queue, isRunning := true, current := some j
      , currentDirect := true, errored := s.errored
      , events := s.events ++ [JQEvent.submitted j, JQEvent.startJob j] } := by
  unfold JobQueue.add
  rw [if_neg (by rw [h]; simp)]

theorem pair_sublist_drop_left {E K : List α} {a b : α} (ha : a ∉ E)
    (h : [a, b].Sublist (E ++ K)) : [a, b].Sublist K := by
  induction E with
  | nil => exact h
  | cons x t ih =>
    simp only [List.cons_append] at h
    cases h with
    | cons _ h' => exact ih (fun hm => ha (List.mem_cons_of_mem x hm)) h'
    | cons₂ =>
      rename_i h'
      exact (ha (by simp)).elim

/-- Preservation of the serializer invariant by `add` on a running queue. -/
theorem jqinv_add_running {s : JobQueue} {j : Nat} (inv : JQInv s)
    (hrun : s.isRunning = true)
    (hfresh : JQEvent.submitted j ∉ s.events) : JQInv (s.add j) := by
  rw [add_running hrun]
  have hnstart : JQEvent.startJob j ∉ s.events := fun h => hfresh (inv.startSub j h)
  have hnset : JQEvent.futureSettled j ∉ s.events :=
    fun h => hnstart (inv.settleStart j h)
  have hsubwait : ∀ a ∈ s.current.toList ++ s.queue,
      JQEvent.submitted a ∈ s.events := by
    intro a ha
    rcases List.mem_append.mp ha with h | h
    · have hc : s.current = some a := by
        cases hcv : s.current with
        | none => rw [hcv] at h; cases h
        | some c => rw [hcv] at h; simp at h; rw [h]
      exact inv.startSub a (inv.curStarted a hc).1
    · exact (inv.queued a h).1
  have hjnotwait : j ∉ s.current.toList ++ s.queue :=
    fun h => hfresh (hsubwait j h)
  have hend : (s.events ++ [JQEvent.submitted j]).Nodup := by
    refine inv.nodup.append (List.nodup_singleton _) ?_
    intro e he hk
    simp at hk
    subst hk
    exact hfresh he
  have hknosub : [JQEvent.submitted j] = [JQEvent.submitted j] := rfl
  have hheadno : ∀ j2 : Nat,
      ¬ submittedBefore (s.events ++ [JQEvent.submitted j]) j j2 :=
    fun j2 hsb => pair_sublist_last hend hsb
  have hsubE : ∀ j1 j2,
      submittedBefore (s.events ++ [JQEvent.submitted j]) j1 j2 →
      JQEvent.submitted j1 ∈ s.events := by
    intro j1 j2 hsb
    rcases List.mem_append.mp (pair_sublist_mem hsb).1 with h | h
    · exact h
    · simp at h
      subst h
      exact absurd hsb (hheadno j2)
  refine { nodup := hend, curStarted := ?_, startedNotSettled := ?_, queued := ?_
         , idle := ?_, startSub := ?_, settleStart := ?_, fulfilSettle := ?_
         , noReject := ?_, waitNodup := ?_, waitOrd := ?_, complete := ?_
         , fulf := ?_, errStuck := ?_, startBeforeSettle := ?_, p1 := ?_, p2 := ?_ }
  · intro j' hj'
    obtain ⟨h1, h2, _⟩ := inv.curStarted j' hj'
    refine ⟨List.mem_append_left _ h1, ?_, rfl⟩
    intro hm
    rcases List.mem_append.mp hm with hm | hm
    · exact h2 hm
    · simp at hm
  · intro j' hm
    rcases List.mem_append.mp hm with hm | hm
    · rcases inv.startedNotSettled j' hm with hs | hs
      · exact Or.inl (List.mem_append_left _ hs)
      · exact Or.inr hs
    · simp at hm
  · intro q' hq'
    rcases List.mem_append.mp hq' with hq' | hq'
    · obtain ⟨h1, h2⟩ := inv.queued q' hq'
      refine ⟨List.mem_append_left _ h1, ?_⟩
      intro hm
      rcases List.mem_append.mp hm with hm | hm
      · exact h2 hm
      · simp at hm
    · simp at hq'
      subst hq'
      refine ⟨List.mem_append_right _ (by simp), ?_⟩
      intro hm
      rcases List.mem_append.mp hm with hm | hm
      · exact hnstart hm
      · simp at hm
  · intro h
    exact Bool.noConfusion h
  · intro j' hm
    rcases List.mem_append.mp hm with hm | hm
    · exact List.mem_append_left _ (inv.startSub j' hm)
    · simp at hm
  · intro j' hm
    rcases List.mem_append.mp hm with hm | hm
    · exact List.mem_append_left _ (inv.settleStart j' hm)
    · simp at hm
  · intro j' hm
    rcases List.mem_append.mp hm with hm | hm
    · exact List.mem_append_left _ (inv.fulfilSettle j' hm)
    · simp at hm
  · intro j' hm
    rcases List.mem_append.mp hm with hm | hm
    · exact inv.noReject j' hm
    · simp at hm
  · show (s.current.toList ++ (s.queue ++ [j])).Nodup
    rw [← List.append_assoc]
    refine inv.waitNodup.append (List.nodup_singleton _) ?_
    intro a ha hb
    simp at hb
    subst hb
    exact hjnotwait ha
  · show (s.current.toList ++ (s.queue ++ [j])).Pairwise
      (submittedBefore (s.events ++ [JQEvent.submitted j]))
    rw [← List.append_assoc]
    refine List.pairwise_append.mpr ⟨?_, by simp, ?_⟩
    · exact inv.waitOrd.imp (fun h => submittedBefore_mono h)
    · intro a ha b hb
      simp at hb
      subst hb
      exact eventsBefore_mk (hsubwait a ha) (by simp)
  · intro j' hm
    rcases List.mem_append.mp hm with hm | hm
    · rcases inv.complete j' hm with hw | hs
      · left
        rcases List.mem_append.mp hw with hw | hw
        · exact List.mem_append_left _ hw
        · exact List.mem_append_right _ (List.mem_append_left _ hw)
      · exact Or.inr (List.mem_append_left _ hs)
    · simp at hm
      subst hm
      exact Or.inl (List.mem_append_right _ (List.mem_append_right _ (by simp)))
  · intro he j' hm
    rcases List.mem_append.mp hm with hm | hm
    · exact List.mem_append_left _ (inv.fulf he j' hm)
    · simp at hm
  · intro he
    obtain ⟨h1, _⟩ := inv.errStuck he
    exact ⟨h1, rfl⟩
  · intro j' hm
    rcases List.mem_append.mp hm with hm | hm
    · exact eventsBefore_mono (inv.startBeforeSettle j' hm)
    · simp at hm
  · intro j1 j2 hsb hst
    have hstE : JQEvent.startJob j2 ∈ s.events := by
      rcases List.mem_append.mp hst with h | h
      · exact h
      · simp at h
    have hsub2 : JQEvent.submitted j2 ∈ s.events := inv.startSub j2 hstE
    have hsub1 : JQEvent.submitted j1 ∈ s.events := hsubE j1 j2 hsb
    exact eventsBefore_mono
      (inv.p1 j1 j2 (pair_sublist_append_elim hend hsb hsub1 hsub2) hstE)
  · intro j1 j2 hsb hfl
    have hflE : JQEvent.ticketFulfil j2 ∈ s.events := by
      rcases List.mem_append.mp hfl with h | h
      · exact h
      · simp at h
    have hsub2 : JQEvent.submitted j2 ∈ s.events :=
      inv.startSub j2 (inv.settleStart j2 (inv.fulfilSettle j2 hflE))
    have hsub1 : JQEvent.submitted j1 ∈ s.events := hsubE j1 j2 hsb
    exact eventsBefore_mono
      (inv.p2 j1 j2 (pair_sublist_append_elim hend hsb hsub1 hsub2) hflE)

/-- Preservation of the serializer invariant by `add` on an idle queue. -/
theorem jqinv_add_idle {s : JobQueue} {j : Nat} (inv : JQInv s)
    (hrun : s.isRunning = false)
    (hfresh : JQEvent.submitted j ∉ s.events) : JQInv (s.add j) := by
  rw [add_idle hrun]
  obtain ⟨hq0, hc0⟩ := inv.idle hrun
  have herr : s.errored = false := by
    cases he : s.errored with
    | false => rfl
    | true => exact absurd (inv.errStuck he).2 (by rw [hrun]; simp)
  have hnstart : JQEvent.startJob j ∉ s.events := fun h => hfresh (inv.startSub j h)
  have hnset : JQEvent.futureSettled j ∉ s.events :=
    fun h => hnstart (inv.settleStart j h)
  have hend : (s.events ++ [JQEvent.submitted j, JQEvent.startJob j]).Nodup := by
    refine inv.nodup.append (by simp) ?_
    intro e he hk
    simp at hk
    rcases hk with rfl | rfl
    · exact hfresh he
    · exact hnstart he
  have hheadno : ∀ j2 : Nat,
      ¬ submittedBefore (s.events ++ [JQEvent.submitted j, JQEvent.startJob j]) j j2 := by
    intro j2 hsb
    have h2 := pair_sublist_drop_left hfresh hsb
    cases h2 with
    | cons _ h' =>
      have hl := h'.length_le
      simp at hl
    | cons₂ =>
      rename_i h'
      have hm := List.singleton_sublist.mp h'
      simp at hm
  have hsubE : ∀ j1 j2,
      submittedBefore (s.events ++ [JQEvent.submitted j, JQEvent.startJob j]) j1 j2 →
      JQEvent.submitted j1 ∈ s.events := by
    intro j1 j2 hsb
    rcases List.mem_append.mp (pair_sublist_mem hsb).1 with h | h
    · exact h
    · simp at h
      subst h
      exact absurd hsb (hheadno j2)
  refine { nodup := hend, curStarted := ?_, startedNotSettled := ?_, queued := ?_
         , idle := ?_, startSub := ?_, settleStart := ?_, fulfilSettle := ?_
         , noReject := ?_, waitNodup := ?_, waitOrd := ?_, complete := ?_
         , fulf := ?_, errStuck := ?_, startBeforeSettle := ?_, p1 := ?_, p2 := ?_ }
  · intro j' hj'
    cases hj'
    refine ⟨List.mem_append_right _ (by simp), ?_, rfl⟩
    intro hm
    rcases List.mem_append.mp hm with hm | hm
    · exact hnset hm
    · simp at hm
  · intro j' hm
    rcases List.mem_append.mp hm with hm | hm
    · rcases inv.startedNotSettled j' hm with hs | hs
      · exact Or.inl (List.mem_append_left _ hs)
      · rw [hc0] at hs; cases hs
    · simp at hm
      subst hm
      exact Or.inr rfl
  · intro q' hq'
    rw [hq0] at hq'
    cases hq'
  · intro h
    exact Bool.noConfusion h
  · intro j' hm
    rcases List.mem_append.mp hm with hm | hm
    · exact List.mem_append_left _ (inv.startSub j' hm)
    · simp at hm
      rcases hm with rfl | rfl <;> exact List.mem_append_right _ (by simp)
  · intro j' hm
    rcases List.mem_append.mp hm with hm | hm
    · exact List.mem_append_left _ (inv.settleStart j' hm)
    · simp at hm
  · intro j' hm
    rcases List.mem_append.mp hm with hm | hm
    · exact List.mem_append_left _ (inv.fulfilSettle j' hm)
    · simp at hm
  · intro j' hm
    rcases List.mem_append.mp hm with hm | hm
    · exact inv.noReject j' hm
    · simp at hm
  · show ([j] ++ s.queue).Nodup
    rw [hq0]
    simp
  · show ([j] ++ s.queue).Pairwise
      (submittedBefore (s.events ++ [JQEvent.submitted j, JQEvent.startJob j]))
    rw [hq0]
    simp
  · intro j' hm
    rcases List.mem_append.mp hm with hm | hm
    · rcases inv.complete j' hm with hw | hs
      · rw [hc0, hq0] at hw; cases hw
      · exact Or.inr (List.mem_append_left _ hs)
    · simp at hm
      subst hm
      exact Or.inl (List.mem_append_left _ (by simp))
  · intro he j' hm
    rcases List.mem_append.mp hm with hm | hm
    · exact List.mem_append_left _ (inv.fulf he j' hm)
    · simp at hm
  · intro he
    rw [herr] at he
    exact Bool.noConfusion he
  · intro j' hm
    rcases List.mem_append.mp hm with hm | hm
    · exact eventsBefore_mono (inv.startBeforeSettle j' hm)
    · simp at hm
  · intro j1 j2 hsb hst
    rcases List.mem_append.mp hst with hstE | hstK
    · have hsub2 : JQEvent.submitted j2 ∈ s.events := inv.startSub j2 hstE
      have hsub1 : JQEvent.submitted j1 ∈ s.events := hsubE j1 j2 hsb
      exact eventsBefore_mono
        (inv.p1 j1 j2 (pair_sublist_append_elim hend hsb hsub1 hsub2) hstE)
    · simp at hstK
      subst hstK
      have hsub1 : JQEvent.submitted j1 ∈ s.events := hsubE j1 j2 hsb
      rcases inv.complete j1 hsub1 with hw | hs
      · rw [hc0, hq0] at hw; cases hw
      · exact eventsBefore_mk hs (by simp)
  · intro j1 j2 hsb hfl
    have hflE : JQEvent.ticketFulfil j2 ∈ s.events := by
      rcases List.mem_append.mp hfl with h | h
      · exact h
      · simp at h
    have hsub2 : JQEvent.submitted j2 ∈ s.events :=
      inv.startSub j2 (inv.settleStart j2 (inv.fulfilSettle j2 hflE))
    have hsub1 : JQEvent.submitted j1 ∈ s.events := hsubE j1 j2 hsb
    exact eventsBefore_mono
      (inv.p2 j1 j2 (pair_sublist_append_elim hend hsb hsub1 hsub2) hflE)

/-- Preservation of the serializer invariant when the running job's future
fulfils and a queued job is promoted; `K` abstracts over the two
microtask orders of the direct and the promoted continuation chain. -/
theorem jqinv_settleOk_cons {s : JobQueue} {j q : Nat} {rest : List Nat}
    {K : List JQEvent} (inv : JQInv s)
    (hcur : s.current = some j) (hq : s.queue = q :: rest)
    (hK : K = [JQEvent.futureSettled j, JQEvent.startJob q, JQEvent.ticketFulfil j] ∨
          K = [JQEvent.futureSettled j, JQEvent.ticketFulfil j, JQEvent.startJob q]) :
    JQInv { queue := rest, isRunning := s.isRunning, current := some q
          , currentDirect := false, errored := s.errored
          , events := s.events ++ K } := by
  obtain ⟨hstartj, hnsetj, hrun⟩ := inv.curStarted j hcur
  have herr : s.errored = false := by
    cases he : s.errored with
    | false => rfl
    | true => exact absurd hcur (by rw [(inv.errStuck he).1]; exact Option.noConfusion)
  have hnfulj : JQEvent.ticketFulfil j ∉ s.events :=
    fun h => hnsetj (inv.fulfilSettle j h)
  have hqmem : q ∈ s.queue := by rw [hq]; simp
  have hsubq : JQEvent.submitted q ∈ s.events := (inv.queued q hqmem).1
  have hnstartq : JQEvent.startJob q ∉ s.events := (inv.queued q hqmem).2
  have hwl : s.current.toList ++ s.queue = j :: q :: rest := by rw [hcur, hq]; rfl
  have hwnd : (j :: q :: rest).Nodup := hwl ▸ inv.waitNodup
  have hjq : j ≠ q := by
    intro h
    exact (List.nodup_cons.mp hwnd).1 (h ▸ List.mem_cons_self q rest)
  have hqrest : q ∉ rest := (List.nodup_cons.mp (List.nodup_cons.mp hwnd).2).1
  have hKmem : ∀ e ∈ K, e = JQEvent.futureSettled j ∨ e = JQEvent.startJob q ∨
      e = JQEvent.ticketFulfil j := by
    rcases hK with rfl | rfl <;> intro e he <;> simp at he <;> tauto
  have hKset : JQEvent.futureSettled j ∈ K := by rcases hK with rfl | rfl <;> simp
  have hKful : JQEvent.ticketFulfil j ∈ K := by rcases hK with rfl | rfl <;> simp
  have hKstart : JQEvent.startJob q ∈ K := by rcases hK with rfl | rfl <;> simp
  have hKord : [JQEvent.futureSettled j, JQEvent.startJob q].Sublist K := by
    rcases hK with rfl | rfl <;> simp
  have hKnosub : ∀ j' : Nat, JQEvent.submitted j' ∉ K := by
    intro j' hk
    rcases hKmem _ hk with h | h | h <;> exact JQEvent.noConfusion h
  have hend : (s.events ++ K).Nodup := by
    refine inv.nodup.append ?_ ?_
    · rcases hK with rfl | rfl <;> simp [hjq]
    · intro e he hk
      rcases hKmem e hk with rfl | rfl | rfl
      · exact hnsetj he
      · exact hnstartq he
      · exact hnfulj he
  have hsubE : ∀ j1 j2, submittedBefore (s.events ++ K) j1 j2 →
      JQEvent.submitted j1 ∈ s.events := by
    intro j1 j2 hsb
    rcases List.mem_append.mp (pair_sublist_mem hsb).1 with h | h
    · exact h
    · exact absurd h (hKnosub j1)
  have hordK : Pairwise (submittedBefore s.events) (q :: rest) :=
    (hwl ▸ inv.waitOrd).of_cons
  have hheadOrd : ∀ a ∈ q :: rest, submittedBefore s.events j a :=
    (List.pairwise_cons.mp (hwl ▸ inv.waitOrd)).1
  refine { nodup := hend, curStarted := ?_, startedNotSettled := ?_, queued := ?_
         , idle := ?_, startSub := ?_, settleStart := ?_, fulfilSettle := ?_
         , noReject := ?_, waitNodup := ?_, waitOrd := ?_, complete := ?_
         , fulf := ?_, errStuck := ?_, startBeforeSettle := ?_, p1 := ?_, p2 := ?_ }
  · intro j' hj'
    cases hj'
    refine ⟨List.mem_append_right _ hKstart, ?_, hrun⟩
    intro hm
    rcases List.mem_append.mp hm with hm | hm
    · exact hnstartq (inv.settleStart q hm)
    · rcases hKmem _ hm with h | h | h
      · simp at h
        exact hjq h.symm
      · exact JQEvent.noConfusion h
      · exact JQEvent.noConfusion h
  · intro j' hm
    rcases List.mem_append.mp hm with hm | hm
    · rcases inv.startedNotSettled j' hm with hs | hs
      · exact Or.inl (List.mem_append_left _ hs)
      · rw [hcur] at hs
        injection hs with hs
        subst hs
        exact Or.inl (List.mem_append_right _ hKset)
    · rcases hKmem _ hm with h | h | h
      · exact JQEvent.noConfusion h
      · simp at h
        subst h
        exact Or.inr rfl
      · exact JQEvent.noConfusion h
  · intro q' hq'
    have hq'q : q' ∈ s.queue := by rw [hq]; exact List.mem_cons_of_mem q hq'
    obtain ⟨h1, h2⟩ := inv.queued q' hq'q
    refine ⟨List.mem_append_left _ h1, ?_⟩
    intro hm
    rcases List.mem_append.mp hm with hm | hm
    · exact h2 hm
    · rcases hKmem _ hm with h | h | h
      · exact JQEvent.noConfusion h
      · simp at h
        subst h
        exact hqrest hq'
      · exact JQEvent.noConfusion h
  · intro h
    rw [hrun] at h
    exact Bool.noConfusion h
  · intro j' hm
    rcases List.mem_append.mp hm with hm | hm
    · exact List.mem_append_left _ (inv.startSub j' hm)
    · rcases hKmem _ hm with h | h | h
      · exact JQEvent.noConfusion h
      · simp at h
        subst h
        exact List.mem_append_left _ hsubq
      · exact JQEvent.noConfusion h
  · intro j' hm
    rcases List.mem_append.mp hm with hm | hm
    · exact List.mem_append_left _ (inv.settleStart j' hm)
    · rcases hKmem _ hm with h | h | h
      · simp at h
        subst h
        exact List.mem_append_left _ hstartj
      · exact JQEvent.noConfusion h
      · exact JQEvent.noConfusion h
  · intro j' hm
    rcases List.mem_append.mp hm with hm | hm
    · exact List.mem_append_left _ (inv.fulfilSettle j' hm)
    · rcases hKmem _ hm with h | h | h
      · exact JQEvent.noConfusion h
      · exact JQEvent.noConfusion h
      · simp at h
        subst h
        exact List.mem_append_right _ hKset
  · intro j' hm
    rcases List.mem_append.mp hm with hm | hm
    · exact inv.noReject j' hm
    · rcases hKmem _ hm with h | h | h <;> exact JQEvent.noConfusion h
  · exact (List.nodup_cons.mp hwnd).2
  · exact hordK.imp (fun h => submittedBefore_mono h)
  · intro j' hm
    rcases List.mem_append.mp hm with hm | hm
    · rcases inv.complete j' hm with hw | hs
      · rw [hwl] at hw
        rcases List.mem_cons.mp hw with rfl | hw
        · exact Or.inr (List.mem_append_right _ hKset)
        · exact Or.inl hw
      · exact Or.inr (List.mem_append_left _ hs)
    · exact absurd hm (hKnosub j')
  · intro he j' hm
    rcases List.mem_append.mp hm with hm | hm
    · exact List.mem_append_left _ (inv.fulf he j' hm)
    · rcases hKmem _ hm with h | h | h
      · simp at h
        subst h
        exact List.mem_append_right _ hKful
      · exact JQEvent.noConfusion h
      · exact JQEvent.noConfusion h
  · intro he
    rw [herr] at he
    exact Bool.noConfusion he
  · intro j' hm
    rcases List.mem_append.mp hm with hm | hm
    · exact eventsBefore_mono (inv.startBeforeSettle j' hm)
    · rcases hKmem _ hm with h | h | h
      · simp at h
        subst h
        exact eventsBefore_mk hstartj hKset
      · exact JQEvent.noConfusion h
      · exact JQEvent.noConfusion h
  · intro j1 j2 hsb hst
    rcases List.mem_append.mp hst with hstE | hstK
    · have hsub2 : JQEvent.submitted j2 ∈ s.events := inv.startSub j2 hstE
      have hsub1 : JQEvent.submitted j1 ∈ s.events := hsubE j1 j2 hsb
      exact eventsBefore_mono
        (inv.p1 j1 j2 (pair_sublist_append_elim hend hsb hsub1 hsub2) hstE)
    · have hj2q : j2 = q := by
        rcases hKmem _ hstK with h | h | h
        · exact JQEvent.noConfusion h
        · simp at h; exact h
        · exact JQEvent.noConfusion h
      subst hj2q
      by_cases hj1 : j1 = j
      · subst hj1
        exact hKord.trans (List.sublist_append_right s.events K)
      · have hsub1 : JQEvent.submitted j1 ∈ s.events := hsubE j1 j2 hsb
        rcases inv.complete j1 hsub1 with hw | hs
        · rw [hwl] at hw
          rcases List.mem_cons.mp hw with rfl | hw
          · exact absurd rfl hj1
          · rcases List.mem_cons.mp hw with rfl | hw
            · exact absurd hsb (fun h => pair_sublist_self hend h)
            · exact absurd hsb (fun h => pair_sublist_asymm hend h
                (submittedBefore_mono ((List.pairwise_cons.mp hordK).1 j1 hw)))
        · exact eventsBefore_mk hs hKstart
  · intro j1 j2 hsb hfl
    rcases List.mem_append.mp hfl with hflE | hflK
    · have hsub2 : JQEvent.submitted j2 ∈ s.events :=
        inv.startSub j2 (inv.settleStart j2 (inv.fulfilSettle j2 hflE))
      have hsub1 : JQEvent.submitted j1 ∈ s.events := hsubE j1 j2 hsb
      exact eventsBefore_mono
        (inv.p2 j1 j2 (pair_sublist_append_elim hend hsb hsub1 hsub2) hflE)
    · have hj2j : j2 = j := by
        rcases hKmem _ hflK with h | h | h
        · exact JQEvent.noConfusion h
        · exact JQEvent.noConfusion h
        · simp at h; exact h
      subst hj2j
      by_cases hj1 : j1 = j2
      · subst hj1
        exact absurd hsb (fun h => pair_sublist_self hend h)
      · have hsub1 : JQEvent.submitted j1 ∈ s.events := hsubE j1 j2 hsb
        rcases inv.complete j1 hsub1 with hw | hs
        · rw [hwl] at hw
          rcases List.mem_cons.mp hw with rfl | hw
          · exact absurd rfl hj1
          · exact absurd hsb (fun h => pair_sublist_asymm hend h
              (submittedBefore_mono (hheadOrd j1 hw)))
        · exact eventsBefore_mk (inv.fulf herr j1 hs) hKful

/-- Preservation of the serializer invariant when the running job's future
fulfils with an empty queue: the serializer goes idle. -/
theorem jqinv_settleOk_nil {s : JobQueue} {j : Nat} (inv : JQInv s)
    (hcur : s.current = some j) (hq : s.queue = []) :
    JQInv { queue := [], isRunning := false, current := none
          , currentDirect := s.currentDirect, errored := s.errored
          , events := s.events ++ [JQEvent.futureSettled j, JQEvent.ticketFulfil j] } := by
  obtain ⟨hstartj, hnsetj, hrun⟩ := inv.curStarted j hcur
  have herr : s.errored = false := by
    cases he : s.errored with
    | false => rfl
    | true => exact absurd hcur (by rw [(inv.errStuck he).1]; exact Option.noConfusion)
  have hnfulj : JQEvent.ticketFulfil j ∉ s.events :=
    fun h => hnsetj (inv.fulfilSettle j h)
  have hwl : s.current.toList ++ s.queue = [j] := by rw [hcur, hq]; rfl
  have hend : (s.events ++ [JQEvent.futureSettled j, JQEvent.ticketFulfil j]).Nodup := by
    refine inv.nodup.append (by simp) ?_
    intro e he hk
    simp at hk
    rcases hk with rfl | rfl
    · exact hnsetj he
    · exact hnfulj he
  have hKnosub : ∀ j' : Nat, JQEvent.submitted j' ∉
      [JQEvent.futureSettled j, JQEvent.ticketFulfil j] := by
    intro j' hk
    simp at hk
  have hsubE : ∀ j1 j2, submittedBefore
      (s.events ++ [JQEvent.futureSettled j, JQEvent.ticketFulfil j]) j1 j2 →
      JQEvent.submitted j1 ∈ s.events := by
    intro j1 j2 hsb
    rcases List.mem_append.mp (pair_sublist_mem hsb).1 with h | h
    · exact h
    · exact absurd h (hKnosub j1)
  refine { nodup := hend, curStarted := ?_, startedNotSettled := ?_, queued := ?_
         , idle := ?_, startSub := ?_, settleStart := ?_, fulfilSettle := ?_
         , noReject := ?_, waitNodup := ?_, waitOrd := ?_, complete := ?_
         , fulf := ?_, errStuck := ?_, startBeforeSettle := ?_, p1 := ?_, p2 := ?_ }
  · intro j' hj'
    exact Option.noConfusion hj'
  · intro j' hm
    rcases List.mem_append.mp hm with hm | hm
    · rcases inv.startedNotSettled j' hm with hs | hs
      · exact Or.inl (List.mem_append_left _ hs)
      · rw [hcur] at hs
        injection hs with hs
        subst hs
        exact Or.inl (List.mem_append_right _ (by simp))
    · simp at hm
  · intro q' hq'
    cases hq'
  · intro _
    exact ⟨rfl, rfl⟩
  · intro j' hm
    rcases List.mem_append.mp hm with hm | hm
    · exact List.mem_append_left _ (inv.startSub j' hm)
    · simp at hm
  · intro j' hm
    rcases List.mem_append.mp hm with hm | hm
    · exact List.mem_append_left _ (inv.settleStart j' hm)
    · simp at hm
      subst hm
      exact List.mem_append_left _ hstartj
  · intro j' hm
    rcases List.mem_append.mp hm with hm | hm
    · exact List.mem_append_left _ (inv.fulfilSettle j' hm)
    · simp at hm
      subst hm
      exact List.mem_append_right _ (by simp)
  · intro j' hm
    rcases List.mem_append.mp hm with hm | hm
    · exact inv.noReject j' hm
    · simp at hm
  · exact List.nodup_nil
  · exact List.Pairwise.nil
  · intro j' hm
    rcases List.mem_append.mp hm with hm | hm
    · rcases inv.complete j' hm with hw | hs
      · rw [hwl] at hw
        simp at hw
        subst hw
        exact Or.inr (List.mem_append_right _ (by simp))
      · exact Or.inr (List.mem_append_left _ hs)
    · exact absurd hm (hKnosub j')
  · intro he j' hm
    rcases List.mem_append.mp hm with hm | hm
    · exact List.mem_append_left _ (inv.fulf he j' hm)
    · simp at hm
      subst hm
      exact List.mem_append_right _ (by simp)
  · intro he
    rw [herr] at he
    exact Bool.noConfusion he
  · intro j' hm
    rcases List.mem_append.mp hm with hm | hm
    · exact eventsBefore_mono (inv.startBeforeSettle j' hm)
    · simp at hm
      subst hm
      exact eventsBefore_mk hstartj (by simp)
  · intro j1 j2 hsb hst
    have hstE : JQEvent.startJob j2 ∈ s.events := by
      rcases List.mem_append.mp hst with h | h
      · exact h
      · simp at h
    have hsub2 : JQEvent.submitted j2 ∈ s.events := inv.startSub j2 hstE
    have hsub1 : JQEvent.submitted j1 ∈ s.events := hsubE j1 j2 hsb
    exact eventsBefore_mono
      (inv.p1 j1 j2 (pair_sublist_append_elim hend hsb hsub1 hsub2) hstE)
  · intro j1 j2 hsb hfl
    rcases List.mem_append.mp hfl with hflE | hflK
    · have hsub2 : JQEvent.submitted j2 ∈ s.events :=
        inv.startSub j2 (inv.settleStart j2 (inv.fulfilSettle j2 hflE))
      have hsub1 : JQEvent.submitted j1 ∈ s.events := hsubE j1 j2 hsb
      exact eventsBefore_mono
        (inv.p2 j1 j2 (pair_sublist_append_elim hend hsb hsub1 hsub2) hflE)
    · have hj2j : j2 = j := by simp at hflK; exact hflK
      subst hj2j
      by_cases hj1 : j1 = j2
      · subst hj1
        exact absurd hsb (fun h => pair_sublist_self hend h)
      · have hsub1 : JQEvent.submitted j1 ∈ s.events := hsubE j1 j2 hsb
        rcases inv.complete j1 hsub1 with hw | hs
        · rw [hwl] at hw
          simp at hw
          exact absurd hw hj1
        · exact eventsBefore_mk (inv.fulf herr j1 hs) (by simp)

/-- Preservation of the serializer invariant when the running job's future
rejects: no handler runs, the queue stalls with `_isRunning` still set. -/
theorem jqinv_settleErr_some {s : JobQueue} {j : Nat} (inv : JQInv s)
    (hcur : s.current = some j) :
    JQInv { queue := s.queue, isRunning := s.isRunning, current := none
          , currentDirect := s.currentDirect, errored := true
          , events := s.events ++ [JQEvent.futureSettled j] } := by
  obtain ⟨hstartj, hnsetj, hrun⟩ := inv.curStarted j hcur
  have hwl : s.current.toList ++ s.queue = j :: s.queue := by rw [hcur]; rfl
  have hend : (s.events ++ [JQEvent.futureSettled j]).Nodup := by
    refine inv.nodup.append (by simp) ?_
    intro e he hk
    simp at hk
    subst hk
    exact hnsetj he
  have hKnosub : ∀ j' : Nat,
      JQEvent.submitted j' ∉ [JQEvent.futureSettled j] := by
    intro j' hk
    simp at hk
  have hsubE : ∀ j1 j2,
      submittedBefore (s.events ++ [JQEvent.futureSettled j]) j1 j2 →
      JQEvent.submitted j1 ∈ s.events := by
    intro j1 j2 hsb
    rcases List.mem_append.mp (pair_sublist_mem hsb).1 with h | h
    · exact h
    · exact absurd h (hKnosub j1)
  refine { nodup := hend, curStarted := ?_, startedNotSettled := ?_, queued := ?_
         , idle := ?_, startSub := ?_, settleStart := ?_, fulfilSettle := ?_
         , noReject := ?_, waitNodup := ?_, waitOrd := ?_, complete := ?_
         , fulf := ?_, errStuck := ?_, startBeforeSettle := ?_, p1 := ?_, p2 := ?_ }
  · intro j' hj'
    exact Option.noConfusion hj'
  · intro j' hm
    rcases List.mem_append.mp hm with hm | hm
    · rcases inv.startedNotSettled j' hm with hs | hs
      · exact Or.inl (List.mem_append_left _ hs)
      · rw [hcur] at hs
        injection hs with hs
        subst hs
        exact Or.inl (List.mem_append_right _ (by simp))
    · simp at hm
  · intro q' hq'
    obtain ⟨h1, h2⟩ := inv.queued q' hq'
    refine ⟨List.mem_append_left _ h1, ?_⟩
    intro hm
    rcases List.mem_append.mp hm with hm | hm
    · exact h2 hm
    · simp at hm
  · intro h
    rw [hrun] at h
    exact Bool.noConfusion h
  · intro j' hm
    rcases List.mem_append.mp hm with hm | hm
    · exact List.mem_append_left _ (inv.startSub j' hm)
    · simp at hm
  · intro j' hm
    rcases List.mem_append.mp hm with hm | hm
    · exact List.mem_append_left _ (inv.settleStart j' hm)
    · simp at hm
      subst hm
      exact List.mem_append_left _ hstartj
  · intro j' hm
    rcases List.mem_append.mp hm with hm | hm
    · exact List.mem_append_left _ (inv.fulfilSettle j' hm)
    · simp at hm
  · intro j' hm
    rcases List.mem_append.mp hm with hm | hm
    · exact inv.noReject j' hm
    · simp at hm
  · exact (hwl ▸ inv.waitNodup).of_cons
  · exact (hwl ▸ inv.waitOrd).of_cons.imp (fun h => submittedBefore_mono h)
  · intro j' hm
    rcases List.mem_append.mp hm with hm | hm
    · rcases inv.complete j' hm with hw | hs
      · rw [hwl] at hw
        rcases List.mem_cons.mp hw with rfl | hw
        · exact Or.inr (List.mem_append_right _ (by simp))
        · exact Or.inl hw
      · exact Or.inr (List.mem_append_left _ hs)
    · exact absurd hm (hKnosub j')
  · intro he
    exact absurd he (by simp)
  · intro _
    exact ⟨rfl, hrun⟩
  · intro j' hm
    rcases List.mem_append.mp hm with hm | hm
    · exact eventsBefore_mono (inv.startBeforeSettle j' hm)
    · simp at hm
      subst hm
      exact eventsBefore_mk hstartj (by simp)
  · intro j1 j2 hsb hst
    have hstE : JQEvent.startJob j2 ∈ s.events := by
      rcases List.mem_append.mp hst with h | h
      · exact h
      · simp at h
    have hsub2 : JQEvent.submitted j2 ∈ s.events := inv.startSub j2 hstE
    have hsub1 : JQEvent.submitted j1 ∈ s.events := hsubE j1 j2 hsb
    exact eventsBefore_mono
      (inv.p1 j1 j2 (pair_sublist_append_elim hend hsb hsub1 hsub2) hstE)
  · intro j1 j2 hsb hfl
    have hflE : JQEvent.ticketFulfil j2 ∈ s.events := by
      rcases List.mem_append.mp hfl with h | h
      · exact h
      · simp at h
    have hsub2 : JQEvent.submitted j2 ∈ s.events :=
      inv.startSub j2 (inv.settleStart j2 (inv.fulfilSettle j2 hflE))
    have hsub1 : JQEvent.submitted j1 ∈ s.events := hsubE j1 j2 hsb
    exact eventsBefore_mono
      (inv.p2 j1 j2 (pair_sublist_append_elim hend hsb hsub1 hsub2) hflE)

/-- A fresh serializer satisfies the invariant. -/
theorem jqinv_init : JQInv JobQueue.init := by
  refine { nodup := List.nodup_nil, curStarted := ?_, startedNotSettled := ?_
         , queued := ?_, idle := ?_, startSub := ?_, settleStart := ?_
         , fulfilSettle := ?_, noReject := ?_, waitNodup := List.nodup_nil
         , waitOrd := List.Pairwise.nil, complete := ?_, fulf := ?_
         , errStuck := ?_, startBeforeSettle := ?_, p1 := ?_, p2 := ?_ }
  · intro j h
    exact Option.noConfusion h
  · intro j h
    cases h
  · intro q h
    cases h
  · intro _
    exact ⟨rfl, rfl⟩
  · intro j h
    cases h
  · intro j h
    cases h
  · intro j h
    cases h
  · intro j h
    cases h
  · intro j h
    cases h
  · intro _ j h
    cases h
  · intro h
    exact Bool.noConfusion h
  · intro j h
    cases h
  · intro j1 j2 h _
    exact absurd (List.sublist_nil.mp h) (by simp)
  · intro j1 j2 h _
    exact absurd (List.sublist_nil.mp h) (by simp)

/-- A step only adds `submitted` events for the job named by an `add`. -/
theorem submitted_step {s : JobQueue} {j : Nat} (op : JQOp)
    (hm : JQEvent.submitted j ∈ (s.step op).events) :
    JQEvent.submitted j ∈ s.events ∨ op = JQOp.add j := by
  cases op with
  | add j' =>
    cases hrun : s.isRunning with
    | true =>
      rw [show s.step (JQOp.add j') = s.add j' from rfl, add_running hrun] at hm
      rcases List.mem_append.mp hm with h | h
      · exact Or.inl h
      · simp at h
        subst h
        exact Or.inr rfl
    | false =>
      rw [show s.step (JQOp.add j') = s.add j' from rfl, add_idle hrun] at hm
      rcases List.mem_append.mp hm with h | h
      · exact Or.inl h
      · simp at h
        subst h
        exact Or.inr rfl
  | settleOk =>
    cases hcur : s.current with
    | none =>
      rw [show s.step JQOp.settleOk = s.settleOk from rfl, settleOk_none hcur] at hm
      exact Or.inl hm
    | some c =>
      rw [show s.step JQOp.settleOk = s.settleOk from rfl, settleOk_spec hcur] at hm
      cases hq : s.queue with
      | nil =>
        rw [hq] at hm
        rcases List.mem_append.mp hm with h | h
        · exact Or.inl h
        · simp at h
      | cons q rest =>
        rw [hq] at hm
        rcases List.mem_append.mp hm with h | h
        · exact Or.inl h
        · cases hd : s.currentDirect <;> rw [hd] at h <;> simp at h
  | settleErr =>
    cases hcur : s.current with
    | none =>
      rw [show s.step JQOp.settleErr = s.settleErr from rfl, settleErr_none hcur] at hm
      exact Or.inl hm
    | some c =>
      rw [show s.step JQOp.settleErr = s.settleErr from rfl, settleErr_spec hcur] at hm
      rcases List.mem_append.mp hm with h | h
      · exact Or.inl h
      · simp at h

/-- One operation preserves the invariant, provided an added id is fresh. -/
theorem jqinv_step {s : JobQueue} (inv : JQInv s) (op : JQOp)
    (hfresh : ∀ j, op = JQOp.add j → JQEvent.submitted j ∉ s.events) :
    JQInv (s.step op) := by
  cases op with
  | add j =>
    cases hrun : s.isRunning with
    | true => exact jqinv_add_running inv hrun (hfresh j rfl)
    | false => exact jqinv_add_idle inv hrun (hfresh j rfl)
  | settleOk =>
    show JQInv s.settleOk
    cases hcur : s.current with
    | none =>
      rw [settleOk_none hcur]
      exact inv
    | some j =>
      rw [settleOk_spec hcur]
      cases hq : s.queue with
      | nil => exact jqinv_settleOk_nil inv hcur hq
      | cons q rest =>
        exact jqinv_settleOk_cons inv hcur hq (by cases s.currentDirect <;> simp)
  | settleErr =>
    show JQInv s.settleErr
    cases hcur : s.current with
    | none =>
      rw [settleErr_none hcur]
      exact inv
    | some j =>
      rw [settleErr_spec hcur]
      exact jqinv_settleErr_some inv hcur

theorem addIds_cons_add (j : Nat) (ops : List JQOp) :
    addIds (JQOp.add j :: ops) = j :: addIds ops := rfl

theorem addIds_cons_ok (ops : List JQOp) :
    addIds (JQOp.settleOk :: ops) = addIds ops := rfl

theorem addIds_cons_err (ops : List JQOp) :
    addIds (JQOp.settleErr :: ops) = addIds ops := rfl

theorem mem_addIds_tail {j : Nat} (op : JQOp) {ops : List JQOp}
    (h : j ∈ addIds ops) : j ∈ addIds (op :: ops) := by
  cases op with
  | add j' => rw [addIds_cons_add]; exact List.mem_cons_of_mem j' h
  | settleOk => rw [addIds_cons_ok]; exact h
  | settleErr => rw [addIds_cons_err]; exact h

/-- Running a script whose added ids are distinct and unseen preserves the
invariant. -/
theorem jqinv_run {s : JobQueue} (inv : JQInv s) (script : List JQOp)
    (hnd : (addIds script).Nodup)
    (hdisj : ∀ j ∈ addIds script, JQEvent.submitted j ∉ s.events) :
    JQInv (runScript s script) := by
  induction script generalizing s with
  | nil => exact inv
  | cons op ops ih =>
    have hstep : JQInv (s.step op) :=
      jqinv_step inv op (fun j hj => hdisj j (by subst hj; rw [addIds_cons_add]; simp))
    have hnd' : (addIds ops).Nodup := by
      cases op with
      | add j' => rw [addIds_cons_add] at hnd; exact hnd.of_cons
      | settleOk => rw [addIds_cons_ok] at hnd; exact hnd
      | settleErr => rw [addIds_cons_err] at hnd; exact hnd
    refine ih hstep hnd' ?_
    intro j hj hmem
    rcases submitted_step op hmem with h | h
    · exact hdisj j (mem_addIds_tail op hj) h
    · subst h
      rw [addIds_cons_add] at hnd
      exact (List.nodup_cons.mp hnd).1 hj

/-- C4 — counterexample.  Submit thunk 1 (it starts at once), submit
thunk 2 (it queues), then let thunk 1's future reject: the caller's
ticket is never completed at all (the source's `EmptyPromise` has no
reject operation and the serializer's `.then` chain attaches no rejection
handler), thunk 2 never starts, and the queue stalls with `_isRunning`
still set — contradicting "the ticket completes with that error, then the
next queued ticket runs". -/
theorem jobqueue_error_counterexample :
    (runScript JobQueue.init [JQOp.add 1, JQOp.add 2, JQOp.settleErr]).events =
      [JQEvent.submitted 1, JQEvent.startJob 1, JQEvent.submitted 2,
       JQEvent.futureSettled 1] ∧
    JQEvent.ticketReject 1 ∉
      (runScript JobQueue.init [JQOp.add 1, JQOp.add 2, JQOp.settleErr]).events ∧
    JQEvent.ticketFulfil 1 ∉
      (runScript JobQueue.init [JQOp.add 1, JQOp.add 2, JQOp.settleErr]).events ∧
    JQEvent.startJob 2 ∉
      (runScript JobQueue.init [JQOp.add 1, JQOp.add 2, JQOp.settleErr]).events ∧
    (runScript JobQueue.init [JQOp.add 1, JQOp.add 2, JQOp.settleErr]).isRunning
      = true ∧
    (runScript JobQueue.init [JQOp.add 1, JQOp.add 2, JQOp.settleErr]).queue
      = [2] := by
  decide

/-- C4 — amended.  After a thunk's future rejects, the serializer stalls
permanently: under any further operations the running slot stays empty,
`_isRunning` stays `true`, the error flag persists, and the only events
that can still be appended are submissions — no thunk ever starts again
and no ticket is ever settled. -/
theorem jobqueue_stall (s : JobQueue) (herr : s.errored = true)
    (hcur : s.current = none) (hrun : s.isRunning = true) (ops : List JQOp) :
    (runScript s ops).current = none ∧ (runScript s ops).isRunning = true ∧
    (runScript s ops).errored = true ∧
    ∀ e ∈ (runScript s ops).events,
      e ∈ s.events ∨ ∃ j, e = JQEvent.submitted j := by
  induction ops generalizing s with
  | nil => exact ⟨hcur, hrun, herr, fun e he => Or.inl he⟩
  | cons op rest ih =>
    cases op with
    | add j =>
      obtain ⟨h1, h2, h3, h4⟩ := ih (s.add j)
        (by rw [add_running hrun]; exact herr)
        (by rw [add_running hrun]; exact hcur)
        (by rw [add_running hrun])
      refine ⟨h1, h2, h3, ?_⟩
      intro e he
      rcases h4 e he with h | h
      · rw [add_running hrun] at h
        rcases List.mem_append.mp h with h | h
        · exact Or.inl h
        · simp at h
          exact Or.inr ⟨j, h⟩
      · exact Or.inr h
    | settleOk =>
      show (runScript s.settleOk rest).current = none ∧
        (runScript s.settleOk rest).isRunning = true ∧
        (runScript s.settleOk rest).errored = true ∧
        ∀ e ∈ (runScript s.settleOk rest).events,
          e ∈ s.events ∨ ∃ j, e = JQEvent.submitted j
      rw [settleOk_none hcur]
      exact ih s herr hcur hrun
    | settleErr =>
      show (runScript s.settleErr rest).current = none ∧
        (runScript s.settleErr rest).isRunning = true ∧
        (runScript s.settleErr rest).errored = true ∧
        ∀ e ∈ (runScript s.settleErr rest).events,
          e ∈ s.events ∨ ∃ j, e = JQEvent.submitted j
      rw [settleErr_none hcur]
      exact ih s herr hcur hrun

/-- Witness for the amended C4 theorem on a concrete stalled queue. -/
theorem jobqueue_stall_witness :
    (runScript JobQueue.init [JQOp.add 1, JQOp.settleErr]).errored = true ∧
    (runScript (runScript JobQueue.init [JQOp.add 1, JQOp.settleErr])
      [JQOp.add 2, JQOp.settleOk]).current = none :=
  ⟨by decide, (jobqueue_stall _ (by decide) (by decide) (by decide)
    [JQOp.add 2, JQOp.settleOk]).1⟩

/-- C5: for every script of submissions and fulfilment/rejection deliveries
with distinct job ids, at every moment (= after every prefix of the
script) the event trace of the `JobQueue` is serializing: a thunk starts
only after every earlier-submitted thunk's future has settled, tickets
fulfil in submission order, thunks start in FIFO submission order, and at
most one started thunk is unsettled at any time. -/
theorem jobqueue_serializes (script : List JQOp)
    (hnd : (addIds script).Nodup) (n : Nat) :
    SerialTrace ((runScript JobQueue.init (script.take n)).events) ∧
    ∀ j1 j2,
      JQEvent.startJob j1 ∈ (runScript JobQueue.init (script.take n)).events →
      JQEvent.startJob j2 ∈ (runScript JobQueue.init (script.take n)).events →
      JQEvent.futureSettled j1 ∉ (runScript JobQueue.init (script.take n)).events →
      JQEvent.futureSettled j2 ∉ (runScript JobQueue.init (script.take n)).events →
      j1 = j2 := by
  have hndt : (addIds (script.take n)).Nodup :=
    hnd.sublist ((List.take_sublist n script).filterMap _)
  have inv : JQInv (runScript JobQueue.init (script.take n)) :=
    jqinv_run jqinv_init (script.take n) hndt
      (fun j _ h => absurd h (List.not_mem_nil _))
  refine ⟨⟨inv.p1, inv.p2, ?_⟩, ?_⟩
  · intro j1 j2 hsb hst
    have h1 := inv.p1 j1 j2 hsb hst
    have hset1 := (pair_sublist_mem h1).1
    exact pair_sublist_trans inv.nodup (inv.startBeforeSettle j1 hset1) h1
  · intro j1 j2 hs1 hs2 hn1 hn2
    rcases inv.startedNotSettled j1 hs1 with h | hc1
    · exact absurd h hn1
    rcases inv.startedNotSettled j2 hs2 with h | hc2
    · exact absurd h hn2
    rw [hc1] at hc2
    injection hc2

/-- Witness for C5 on a concrete script: with jobs 1 and 2 submitted in
that order and both futures fulfilling, job 1's future settles before
job 2's thunk starts. -/
theorem jobqueue_serializes_witness :
    (addIds [JQOp.add 1, JQOp.add 2, JQOp.settleOk, JQOp.settleOk]).Nodup ∧
    eventsBefore
      ((runScript JobQueue.init
        ([JQOp.add 1, JQOp.add 2, JQOp.settleOk, JQOp.settleOk].take 4)).events)
      (JQEvent.futureSettled 1) (JQEvent.startJob 2) :=
  ⟨by decide,
   (jobqueue_serializes [JQOp.add 1, JQOp.add 2, JQOp.settleOk, JQOp.settleOk]
      (by decide) 4).1.1 1 2 (by unfold submittedBefore eventsBefore; decide)
      (by decide)⟩

end PathTracer
